import Mathlib

/-!
Verification development for the PyonFX ASS core (`pyonfx/ass_core.py`).

The development shallowly embeds the extended-computation pass of
`Ass.__init__` — tag-chunk splitting, karaoke syllable extraction, word and
character segmentation, position calculation (including the vertical-kanji
branches), the lead-in/lead-out pass — and `Ass.write_line`.

Strings are modelled as `List Char`.  The regular expressions used by the
source are modelled as explicit scanning functions with Python `re`
semantics (`.` does not match a newline, `*?` is lazy, `*`/`+` are greedy,
`re.match` anchors at the start only).  Python floats are modelled as `ℚ`;
the claims under study are about which fields are assigned and from which
expressions, not about rounding.  Python objects whose attributes are only
conditionally assigned are modelled with `Option` fields (`none` = the
attribute was never set).  The font-metrics provider (`font_utility.Font`)
and the scalar converter (`convert.Convert`) are external collaborators of
this file and enter as parameters.
-/

set_option maxHeartbeats 1000000

abbrev Str := List Char

/-- Python `\s` on the ASCII range (the whitespace classes used by the
source's regexes and by `str.isspace`). -/
def isSpaceChar (c : Char) : Bool :=
  c = ' ' || c = '\t' || c = '\n' || c = '\r' || c = '\x0b' || c = '\x0c'

/-- Python `\d` on ASCII. -/
def isDigitChar (c : Char) : Bool :=
  '0' ≤ c && c ≤ '9'

/-- Numeric value of a digit string, as computed by Python `int`. -/
def digitsVal (l : Str) : Nat :=
  l.foldl (fun a c => a * 10 + (c.toNat - '0'.toNat)) 0

/-- Greedy `(\d+)`: value of the maximal digit prefix plus the remainder.
The caller guarantees at least one digit is present. -/
def readDigits (l : Str) : Nat × Str :=
  let ds := l.takeWhile isDigitChar
  (digitsVal ds, l.drop ds.length)

theorem readDigits_len (l : Str) : (readDigits l).2.length ≤ l.length := by
  simp only [readDigits, List.length_drop]
  omega

/-- Head match of `\\[kK][of]?(\d+)` (the karaoke tag inside
`syl_tags_pattern = re.compile(r"(.*?)\\[kK][of]?(\d+)(.*)")`): the
backslash, `k`/`K`, an optional greedy `o`/`f` (with regex backtracking
when no digit follows it), then the greedy nonempty digit run.  Returns the
duration value and the remainder after the digits. -/
def kHead : Str → Option (Nat × Str)
  | c :: k :: m :: r2 =>
    if c = '\\' ∧ (k = 'k' ∨ k = 'K') then
      if m = 'o' ∨ m = 'f' then
        match r2 with
        | [] => none
        | d0 :: _ => if isDigitChar d0 then some (readDigits r2) else none
      else if isDigitChar m then some (readDigits (m :: r2))
      else none
    else none
  | _ => none

theorem len_le_of_readDigits {l : Str} {d : Nat} {a : Str}
    (h : readDigits l = (d, a)) : a.length ≤ l.length := by
  have h2 : (readDigits l).2 = a := by rw [h]
  have hr := readDigits_len l
  rw [h2] at hr
  exact hr

theorem kHead_len {s : Str} {d : Nat} {a : Str} (h : kHead s = some (d, a)) :
    a.length < s.length := by
  match s with
  | [] => exact absurd h (by simp [show kHead [] = none from rfl])
  | [c] => exact absurd h (by simp [show kHead [c] = none from rfl])
  | [c, k] => exact absurd h (by simp [show kHead [c, k] = none from rfl])
  | [c, k, m] =>
    have he : kHead [c, k, m]
        = if c = '\\' ∧ (k = 'k' ∨ k = 'K') then
            if m = 'o' ∨ m = 'f' then none
            else if isDigitChar m then some (readDigits [m])
            else none
          else none := rfl
    rw [he] at h
    split at h
    · split at h
      · simp at h
      · split at h
        · rw [Option.some_inj] at h
          have := len_le_of_readDigits h
          simp only [List.length_cons] at this ⊢
          omega
        · simp at h
    · simp at h
  | c :: k :: m :: d0 :: r3 =>
    have he : kHead (c :: k :: m :: d0 :: r3)
        = if c = '\\' ∧ (k = 'k' ∨ k = 'K') then
            if m = 'o' ∨ m = 'f' then
              if isDigitChar d0 then some (readDigits (d0 :: r3)) else none
            else if isDigitChar m then some (readDigits (m :: d0 :: r3))
            else none
          else none := rfl
    rw [he] at h
    split at h
    · split at h
      · split at h
        · rw [Option.some_inj] at h
          have := len_le_of_readDigits h
          simp only [List.length_cons] at this ⊢
          omega
        · simp at h
      · split at h
        · rw [Option.some_inj] at h
          have := len_le_of_readDigits h
          simp only [List.length_cons] at this ⊢
          omega
        · simp at h
    · simp at h

/-- `re.match(r"(.*?)\\[kK][of]?(\d+)(.*)", s)`: the lazy `(.*?)` finds the
earliest position (over non-newline characters) where a karaoke duration
tag begins; the final `(.*)` greedily takes the remainder up to a newline.
Returns `(pretags, duration value, posttags)`. -/
def kMatch : Str → Option (Str × Nat × Str)
  | [] => none
  | c :: rest =>
    match kHead (c :: rest) with
    | some (d, a) => some ([], d, a.takeWhile (· ≠ '\n'))
    | none =>
      if c = '\n' then none
      else
        match kMatch rest with
        | some (pre, d, post) => some (c :: pre, d, post)
        | none => none

theorem kMatch_cons_eq (c : Char) (rest : Str) :
    kMatch (c :: rest)
      = match kHead (c :: rest) with
        | some (d, a) => some ([], d, a.takeWhile (· ≠ '\n'))
        | none =>
          if c = '\n' then none
          else
            match kMatch rest with
            | some (pre, d, post) => some (c :: pre, d, post)
            | none => none := rfl

theorem kMatch_of_kHead_some {c : Char} {rest : Str} {d : Nat} {a : Str}
    (hk : kHead (c :: rest) = some (d, a)) :
    kMatch (c :: rest) = some ([], d, a.takeWhile (· ≠ '\n')) := by
  rw [kMatch_cons_eq, hk]

theorem kMatch_of_kHead_none {c : Char} {rest : Str}
    (hk : kHead (c :: rest) = none) (hc : ¬ c = '\n') :
    kMatch (c :: rest)
      = match kMatch rest with
        | some (pre, d, post) => some (c :: pre, d, post)
        | none => none := by
  rw [kMatch_cons_eq, hk]
  exact if_neg hc

theorem kMatch_len {s : Str} {pre : Str} {d : Nat} {post : Str}
    (h : kMatch s = some (pre, d, post)) : post.length < s.length := by
  induction s generalizing pre d post with
  | nil => exact Option.noConfusion h
  | cons c rest ih =>
    cases hk : kHead (c :: rest) with
    | some da =>
      obtain ⟨d0, a0⟩ := da
      rw [kMatch_of_kHead_some hk, Option.some_inj] at h
      have h1 : (a0.takeWhile (· ≠ '\n')).length ≤ a0.length :=
        (List.takeWhile_sublist _).length_le
      have h2 := kHead_len hk
      cases h
      omega
    | none =>
      by_cases hc : c = '\n'
      · rw [kMatch_cons_eq, hk, if_pos hc] at h
        exact Option.noConfusion h
      · rw [kMatch_of_kHead_none hk hc] at h
        revert h
        cases hm : kMatch rest with
        | some t =>
          obtain ⟨p1, d1, q1⟩ := t
          intro h
          have h' : some (c :: p1, d1, q1) = some (pre, d, post) := h
          rw [Option.some_inj] at h'
          have hlen := ih hm
          cases h'
          simp only [List.length_cons]
          omega
        | none => intro h; exact Option.noConfusion h

theorem head_drop_tail_len {α : Type} {l : List α} {k : Nat} {b : α}
    (hh : (l.drop k).head? = some b) :
    (l.drop k).tail.length + 1 ≤ l.length := by
  cases hd : l.drop k with
  | nil => rw [hd] at hh; exact Option.noConfusion hh
  | cons x tl =>
    have h1 : (l.drop k).length = l.length - k := List.length_drop k l
    rw [hd] at h1
    simp only [List.length_cons] at h1
    simp only [List.tail_cons]
    omega

/-- One `\{.*?\}` group at the head of the string: an opening brace, the
lazy shortest run of non-newline characters up to the first closing brace,
and that closing brace.  Returns the bracket-stripped content and the rest. -/
def braceGroup : Str → Option (Str × Str)
  | c0 :: rest =>
    if c0 = '{' then
      let content := rest.takeWhile (fun c => c ≠ '}' ∧ c ≠ '\n')
      let rem := rest.drop content.length
      if rem.head? = some '}' then some (content, rem.tail) else none
    else none
  | [] => none

theorem braceGroup_len {s : Str} {c r : Str}
    (h : braceGroup s = some (c, r)) : r.length + 2 ≤ s.length := by
  match s with
  | [] => exact Option.noConfusion h
  | c0 :: rest =>
    rw [show braceGroup (c0 :: rest)
        = (if c0 = '{' then
             if (rest.drop (rest.takeWhile (fun c => c ≠ '}' ∧ c ≠ '\n')).length).head? = some '}'
             then some (rest.takeWhile (fun c => c ≠ '}' ∧ c ≠ '\n'),
                        (rest.drop (rest.takeWhile (fun c => c ≠ '}' ∧ c ≠ '\n')).length).tail)
             else none
           else none) from rfl] at h
    split at h
    · split at h
      · rw [Option.some_inj] at h
        rename_i hhead
        have haux := head_drop_tail_len hhead
        cases h
        simp only [List.length_cons]
        omega
      · exact Option.noConfusion h
    · exact Option.noConfusion h

/-- Fueled iteration of `kMatch`: number of karaoke duration tags peeled by
the source's inner `while True` loop from a chunk's tag string.  The zero
fuel arm coincides with the loop's stop branch; `kMatch_len` shows each
iteration strictly shrinks the string, so any fuel above the length is
exact. -/
def kCountF : Nat → Str → Nat
  | 0, _ => 0
  | n + 1, s =>
    match kMatch s with
    | none => 0
    | some (_, _, post) => 1 + kCountF n post

/-- Number of karaoke duration tags peeled from a tag string. -/
def kCount (l : Str) : Nat := kCountF (l.length + 1) l

/-- Fueled sum of the peeled karaoke duration values (centiseconds). -/
def kSumF : Nat → Str → Nat
  | 0, _ => 0
  | n + 1, s =>
    match kMatch s with
    | none => 0
    | some (_, d, post) => d + kSumF n post

/-- Sum of the karaoke duration values (centiseconds) of a tag string. -/
def kSum (l : Str) : Nat := kSumF (l.length + 1) l

theorem kCountF_congr : ∀ {n m : Nat} {l : Str},
    l.length < n → l.length < m → kCountF n l = kCountF m l
  | n + 1, m + 1, l, hn, hm => by
    rw [show kCountF (n + 1) l
        = (match kMatch l with
           | none => 0
           | some (_, _, post) => 1 + kCountF n post) from rfl,
       show kCountF (m + 1) l
        = (match kMatch l with
           | none => 0
           | some (_, _, post) => 1 + kCountF m post) from rfl]
    cases hk : kMatch l with
    | none => rfl
    | some t =>
      obtain ⟨p, d, post⟩ := t
      have hlen := kMatch_len hk
      show 1 + kCountF n post = 1 + kCountF m post
      rw [kCountF_congr (show post.length < n by omega) (show post.length < m by omega)]

theorem kCount_unfold (l : Str) :
    kCount l
      = match kMatch l with
        | none => 0
        | some (_, _, post) => 1 + kCount post := by
  rw [show kCount l
      = (match kMatch l with
         | none => 0
         | some (_, _, post) => 1 + kCountF l.length post) from rfl]
  cases hk : kMatch l with
  | none => rfl
  | some t =>
    obtain ⟨p, d, post⟩ := t
    have hlen := kMatch_len hk
    show 1 + kCountF l.length post = 1 + kCount post
    rw [kCountF_congr (show post.length < l.length by omega)
      (show post.length < post.length + 1 by omega)]
    rfl

theorem kSumF_congr : ∀ {n m : Nat} {l : Str},
    l.length < n → l.length < m → kSumF n l = kSumF m l
  | n + 1, m + 1, l, hn, hm => by
    rw [show kSumF (n + 1) l
        = (match kMatch l with
           | none => 0
           | some (_, d, post) => d + kSumF n post) from rfl,
       show kSumF (m + 1) l
        = (match kMatch l with
           | none => 0
           | some (_, d, post) => d + kSumF m post) from rfl]
    cases hk : kMatch l with
    | none => rfl
    | some t =>
      obtain ⟨p, d, post⟩ := t
      have hlen := kMatch_len hk
      show d + kSumF n post = d + kSumF m post
      rw [kSumF_congr (show post.length < n by omega) (show post.length < m by omega)]

theorem kSum_unfold (l : Str) :
    kSum l
      = match kMatch l with
        | none => 0
        | some (_, d, post) => d + kSum post := by
  rw [show kSum l
      = (match kMatch l with
         | none => 0
         | some (_, d, post) => d + kSumF l.length post) from rfl]
  cases hk : kMatch l with
  | none => rfl
  | some t =>
    obtain ⟨p, d, post⟩ := t
    have hlen := kMatch_len hk
    show d + kSumF l.length post = d + kSum post
    rw [kSumF_congr (show post.length < l.length by omega)
      (show post.length < post.length + 1 by omega)]
    rfl

/-- Fueled `(\{.*?\})+` at the head: one brace group, then greedily as many
immediately adjacent further groups as possible.  Returns the concatenation
of the groups' contents — the source slices the whole run without the outer
braces and removes the `}{` separators of adjacent groups — and the rest.
Each group consumes at least two characters, so fuel above the length is
exact; the zero-fuel arm coincides with the no-group branch. -/
def tagRunF : Nat → Str → Option (Str × Str)
  | 0, _ => none
  | n + 1, s =>
    match braceGroup s with
    | none => none
    | some (c, r) =>
      match tagRunF n r with
      | some (c2, r2) => some (c ++ c2, r2)
      | none => some (c, r)

/-- `(\{.*?\})+` matched at the head of the string. -/
def tagRun (s : Str) : Option (Str × Str) := tagRunF (s.length + 1) s

theorem tagRunF_len : ∀ {n : Nat} {s c r : Str},
    tagRunF n s = some (c, r) → r.length + 2 ≤ s.length
  | n + 1, s, c, r, h => by
    rw [show tagRunF (n + 1) s
        = (match braceGroup s with
           | none => none
           | some (c, r) =>
             match tagRunF n r with
             | some (c2, r2) => some (c ++ c2, r2)
             | none => some (c, r)) from rfl] at h
    revert h
    cases hb : braceGroup s with
    | none => exact fun h => Option.noConfusion h
    | some t =>
      obtain ⟨c0, r0⟩ := t
      have hb2 := braceGroup_len hb
      intro h
      have h1 : (match tagRunF n r0 with
                 | some (c2, r2) => some (c0 ++ c2, r2)
                 | none => some (c0, r0)) = some (c, r) := h
      revert h1
      cases ht : tagRunF n r0 with
      | none =>
        intro h1
        have h' : some (c0, r0) = some (c, r) := h1
        rw [Option.some_inj] at h'
        cases h'
        omega
      | some t2 =>
        obtain ⟨c2, r2⟩ := t2
        intro h1
        have h' : some (c0 ++ c2, r2) = some (c, r) := h1
        rw [Option.some_inj] at h'
        have ht2 := tagRunF_len ht
        cases h'
        omega

theorem tagRun_len {s c r : Str} (h : tagRun s = some (c, r)) :
    r.length + 2 ≤ s.length := tagRunF_len h

/-- `tag_pattern.search`: the leftmost position at which `(\{.*?\})+`
matches.  Returns the text before the run, the run's joined tag content,
and the rest after the run. -/
def findTagRun : Str → Option (Str × Str × Str)
  | [] => none
  | c :: rest =>
    match tagRun (c :: rest) with
    | some (cont, r) => some ([], cont, r)
    | none =>
      match findTagRun rest with
      | some (p, cont, r) => some (c :: p, cont, r)
      | none => none

theorem findTagRun_len : ∀ {s p cont r : Str},
    findTagRun s = some (p, cont, r) → r.length + 2 ≤ s.length
  | c :: rest, p, cont, r, h => by
    rw [show findTagRun (c :: rest)
        = (match tagRun (c :: rest) with
           | some (cont, r) => some ([], cont, r)
           | none =>
             match findTagRun rest with
             | some (p, cont, r) => some (c :: p, cont, r)
             | none => none) from rfl] at h
    revert h
    cases htr : tagRun (c :: rest) with
    | some t =>
      obtain ⟨c0, r0⟩ := t
      intro h
      have h' : some (([] : Str), c0, r0) = some (p, cont, r) := h
      rw [Option.some_inj] at h'
      have := tagRun_len htr
      cases h'
      omega
    | none =>
      cases hf : findTagRun rest with
      | none => exact fun h => Option.noConfusion h
      | some t =>
        obtain ⟨p0, c0, r0⟩ := t
        intro h
        have h' : some (c :: p0, c0, r0) = some (p, cont, r) := h
        rw [Option.some_inj] at h'
        have := findTagRun_len hf
        cases h'
        simp only [List.length_cons]
        omega

/-- Fueled `re.sub(r"\{.*?\}", "", s)` (the computation of `line.text` from
`line.raw_text`): scan left to right, deleting each brace group, keeping
every other character.  Each step consumes at least one character, so fuel
above the length is exact; the zero-fuel arm only ever receives `[]`. -/
def stripTagsF : Nat → Str → Str
  | 0, s => s
  | n + 1, s =>
    match s with
    | [] => []
    | c :: rest =>
      match braceGroup (c :: rest) with
      | some (_, r) => stripTagsF n r
      | none => c :: stripTagsF n rest

/-- The line's tag-stripped text: `re.sub(r"\{.*?\}", "", raw)`. -/
def stripTags (s : Str) : Str := stripTagsF (s.length + 1) s

/-- `re.match(r"(.*?)(\s+)$", t)` viewed as a test (the source only asks
whether it matches): true iff `t` ends in at least one whitespace character
and the part before the maximal trailing whitespace run — which the
newline-free `(.*?)` must cover — contains no newline. -/
def matchTrailingSpace (t : Str) : Bool :=
  let r := t.reverse
  !(r.takeWhile isSpaceChar).isEmpty && !(r.dropWhile isSpaceChar).any (· = '\n')

/-- Python `str.isspace`: nonempty and all whitespace. -/
def pyIsSpace (t : Str) : Bool :=
  !t.isEmpty && t.all isSpaceChar

/-- The split of a chunk's following text into
(prespace count, core text, postspace count): the source keeps a pure
whitespace text verbatim with zero counts, and otherwise applies
`re.match(r"(\s*)(.*?)(\s*)$", text)` — greedy leading whitespace, lazy
core, greedy trailing whitespace — and takes the lengths of the outer
groups.  (On the no-newline strings this is applied to, that regex is the
leading/trailing whitespace trim.) -/
def splitText (t : Str) : Nat × Str × Nat :=
  if pyIsSpace t then
    (0, t, 0)
  else
    let pre := t.takeWhile isSpaceChar
    let rest := t.drop pre.length
    let core := (rest.reverse.dropWhile isSpaceChar).reverse
    (pre.length, core, rest.length - core.length)

/-- Fueled `re.search(r"\\\-([^\\]+)", tags)`: the leftmost `\-` that is
followed by at least one non-backslash character; the capture is the
greedy run of non-backslash characters after it. -/
def findInlineFxF : Nat → Str → Option Str
  | 0, _ => none
  | n + 1, s =>
    match s with
    | [] => none
    | '\\' :: '-' :: c :: r =>
      if c = '\\' then findInlineFxF n ('-' :: c :: r)
      else some (c :: r.takeWhile (· ≠ '\\'))
    | _ :: rest => findInlineFxF n rest

/-- `re.search(r"\\\-([^\\]+)", tags)`, the inline-effect capture. -/
def findInlineFx (s : Str) : Option Str := findInlineFxF (s.length + 1) s

/-- Fueled `re.findall(r"(\s*)([^\s]+)(\s*)", text)`: each match is
(greedy leading whitespace, greedy nonempty non-whitespace token, greedy
trailing whitespace); scanning resumes after each match, and trailing
whitespace with no following token matches nothing.  Each match consumes
at least the token, so fuel above the length is exact. -/
def findWordsF : Nat → Str → List (Nat × Str × Nat)
  | 0, _ => []
  | n + 1, s =>
    let pre := s.takeWhile isSpaceChar
    match s.drop pre.length with
    | [] => []
    | c :: r =>
      let tok := r.takeWhile (fun x => !isSpaceChar x)
      let s2 := r.drop tok.length
      let post := s2.takeWhile isSpaceChar
      (pre.length, c :: tok, post.length) :: findWordsF n (s2.drop post.length)

/-- `re.findall(r"(\s*)([^\s]+)(\s*)", text)` as
(prespace count, token, postspace count) triples. -/
def findWords (s : Str) : List (Nat × Str × Nat) := findWordsF (s.length + 1) s

/-- One text chunk: the joined content of a run of override-tag groups and
the plain text that follows it.  The chunks appended by the source's
scanning loop carry the running owning-word index under the key `word_i`;
the no-tag chunk and the leading chunk for text before the first tag run
are created without that key, modelled as `none`. -/
structure TextChunk where
  tags : Str
  text : Str
  word_i : Option Nat
deriving DecidableEq

/-- Fueled chunk-scanning loop (`while True` over `tag_pattern.search`):
emits the current run's chunk with the text up to the next run, increments
the owning-word index after any chunk whose text has trailing whitespace,
and stops when no further run exists.  The zero-fuel arm coincides with
the stop branch; each iteration consumes at least two characters of `rest`,
so fuel above the length is exact. -/
def chunkLoopF : Nat → Str → Str → Nat → List TextChunk
  | 0, cont, rest, wi => [⟨cont, rest, some wi⟩]
  | n + 1, cont, rest, wi =>
    match findTagRun rest with
    | none => [⟨cont, rest, some wi⟩]
    | some (p, cont2, rest2) =>
      ⟨cont, p, some wi⟩ ::
        chunkLoopF n cont2 rest2 (if matchTrailingSpace p then wi + 1 else wi)

/-- The source's `text_chunks` list for a raw dialogue text: a single
keyless chunk when there is no tag run at all; otherwise an optional
keyless leading chunk for text before the first run, followed by the
scanning loop's chunks. -/
def buildChunks (raw : Str) : List TextChunk :=
  match findTagRun raw with
  | none => [⟨[], raw, none⟩]
  | some (p, cont, rest) =>
    (if p = [] then [] else [⟨[], p, none⟩]) ++ chunkLoopF (rest.length + 1) cont rest 0

theorem chunkLoopF_congr : ∀ {n m : Nat} {cont rest : Str} {wi : Nat},
    rest.length < n → rest.length < m →
    chunkLoopF n cont rest wi = chunkLoopF m cont rest wi
  | n + 1, m + 1, cont, rest, wi, hn, hm => by
    rw [show chunkLoopF (n + 1) cont rest wi
        = (match findTagRun rest with
           | none => [⟨cont, rest, some wi⟩]
           | some (p, cont2, rest2) =>
             ⟨cont, p, some wi⟩ ::
               chunkLoopF n cont2 rest2 (if matchTrailingSpace p then wi + 1 else wi)) from rfl,
       show chunkLoopF (m + 1) cont rest wi
        = (match findTagRun rest with
           | none => [⟨cont, rest, some wi⟩]
           | some (p, cont2, rest2) =>
             ⟨cont, p, some wi⟩ ::
               chunkLoopF m cont2 rest2 (if matchTrailingSpace p then wi + 1 else wi)) from rfl]
    cases hf : findTagRun rest with
    | none => rfl
    | some t =>
      obtain ⟨p, cont2, rest2⟩ := t
      have hlen := findTagRun_len hf
      show _ :: chunkLoopF n cont2 rest2 _ = _ :: chunkLoopF m cont2 rest2 _
      rw [chunkLoopF_congr (show rest2.length < n by omega)
        (show rest2.length < m by omega)]

/-- The font-metrics provider (external `font_utility.Font`): pure text
measurement `get_text_extents` and the four `get_metrics` values
(ascent, descent, internal leading, external leading). -/
structure FontM where
  extents : Str → ℚ × ℚ
  metrics : ℚ × ℚ × ℚ × ℚ

/-- A provisional syllable, as created from one peeled karaoke tag before
the chunk's finalization pass: timing from the running clock, `tags` the
pre-tags of its match. -/
structure ProtoSyl where
  i : Nat
  word_i : Nat
  start_time : Int
  end_time : Int
  duration : Int
  tags : Str
deriving DecidableEq

/-- Fueled inner `while True` loop over `syl_tags_pattern`: peel one
karaoke tag per iteration, producing one provisional syllable whose
`tags` are the pre-tags, timed at the running clock; stop when no tag
matches.  Returns the provisional syllables in creation order, the final
unmatched remainder, and the updated syllable index and clock.  The
zero-fuel arm coincides with the stop branch. -/
def peelF : Nat → Nat → Nat → Int → Str → List ProtoSyl × Str × Nat × Int
  | 0, _, si, last, t => ([], t, si, last)
  | n + 1, wi, si, last, t =>
    match kMatch t with
    | none => ([], t, si, last)
    | some (pre, d, post) =>
      let p : ProtoSyl :=
        ⟨si, wi, last, last + (d : Int) * 10, (d : Int) * 10, pre⟩
      let r := peelF n wi (si + 1) (last + (d : Int) * 10) post
      (p :: r.1, r.2)

/-- The peeling loop with exact fuel. -/
def peel (wi si : Nat) (last : Int) (t : Str) :
    List ProtoSyl × Str × Nat × Int :=
  peelF (t.length + 1) wi si last t

/-- A finalized syllable (class `Syllable`).  Geometry attributes are
assigned only under the conditions of the source and are `none` until
assigned. -/
structure SylE where
  i : Nat
  word_i : Nat
  start_time : Int
  end_time : Int
  duration : Int
  tags : Str
  inline_fx : Str
  prespace : Nat
  text : Str
  postspace : Nat
  width : Option ℚ := none
  height : Option ℚ := none
  ascent : Option ℚ := none
  descent : Option ℚ := none
  internal_leading : Option ℚ := none
  external_leading : Option ℚ := none
  left : Option ℚ := none
  center : Option ℚ := none
  right : Option ℚ := none
  x : Option ℚ := none
  top : Option ℚ := none
  middle : Option ℚ := none
  bottom : Option ℚ := none
  y : Option ℚ := none
deriving DecidableEq

/-- Finalize one hidden syllable (a provisional syllable that is not the
last of its chunk): the inline-effect carry is updated from its tags and
recorded, text/prespace/postspace are forced empty, and the measurement of
the empty string and the font metrics are assigned.  Returns the syllable
and the updated inline-effect carry. -/
def hiddenSyl (f : FontM) (fx : Str) (p : ProtoSyl) : SylE × Str :=
  let fx2 := (findInlineFx p.tags).getD fx
  ({ i := p.i, word_i := p.word_i, start_time := p.start_time,
     end_time := p.end_time, duration := p.duration, tags := p.tags,
     inline_fx := fx2, prespace := 0, text := [], postspace := 0,
     width := some (f.extents []).1, height := some (f.extents []).2,
     ascent := some f.metrics.1, descent := some f.metrics.2.1,
     internal_leading := some f.metrics.2.2.1,
     external_leading := some f.metrics.2.2.2 }, fx2)

/-- Finalize the last provisional syllable of a chunk: it absorbs the
chunk's leftover tag remainder into its tags, updates and records the
inline-effect carry, and receives the chunk's following text split by
`splitText`.  Returns the syllable and the updated carry. -/
def lastSyl (f : FontM) (fx : Str) (leftover txt : Str) (p : ProtoSyl) :
    SylE × Str :=
  let tags2 := p.tags ++ leftover
  let fx2 := (findInlineFx tags2).getD fx
  let s := splitText txt
  ({ i := p.i, word_i := p.word_i, start_time := p.start_time,
     end_time := p.end_time, duration := p.duration, tags := tags2,
     inline_fx := fx2, prespace := s.1, text := s.2.1, postspace := s.2.2,
     width := some (f.extents s.2.1).1, height := some (f.extents s.2.1).2,
     ascent := some f.metrics.1, descent := some f.metrics.2.1,
     internal_leading := some f.metrics.2.2.1,
     external_leading := some f.metrics.2.2.2 }, fx2)

/-- Finalization of a chunk's provisional syllables: all but the last
become hidden syllables, the last absorbs the leftover tags and the
chunk's text.  The inline-effect carry is threaded through in order. -/
def finalizeChunk (f : FontM) (leftover txt : Str) :
    Str → List ProtoSyl → List SylE × Str
  | fx, [] => ([], fx)
  | fx, [p] =>
    let r := lastSyl f fx leftover txt p
    ([r.1], r.2)
  | fx, p :: q :: rest =>
    let r := hiddenSyl f fx p
    let r2 := finalizeChunk f leftover txt r.2 (q :: rest)
    (r.1 :: r2.1, r2.2)

/-- Process one text chunk that is known to contain a karaoke tag: peel
all provisional syllables, then finalize them.  Returns the chunk's
syllables, the updated syllable index, clock and inline-effect carry.
The owning-word index is read from the chunk's `word_i` key (never absent
here, since keyless chunks have empty tags and fail the karaoke test). -/
def chunkSyls (f : FontM) (tc : TextChunk) (si : Nat) (last : Int)
    (fx : Str) : List SylE × Nat × Int × Str :=
  let r := peel (tc.word_i.getD 0) si last tc.tags
  let fin := finalizeChunk f r.2.1 tc.text fx r.1
  (fin.1, r.2.2.1, r.2.2.2, fin.2)

/-- The source's syllable loop over the text chunks: if any chunk's tag
string has no karaoke duration tag, the whole syllable list is cleared and
the loop breaks; otherwise each chunk appends its syllables, threading the
syllable index, the running clock and the inline-effect carry. -/
def buildSylsGo (f : FontM) :
    List TextChunk → Nat → Int → Str → List SylE → List SylE
  | [], _, _, _, acc => acc
  | tc :: rest, si, last, fx, acc =>
    if (kMatch tc.tags).isSome then
      let r := chunkSyls f tc si last fx
      buildSylsGo f rest r.2.1 r.2.2.1 r.2.2.2 (acc ++ r.1)
    else []

/-- `line.syls` as computed by the source for a line's chunks. -/
def buildSyls (f : FontM) (chunks : List TextChunk) : List SylE :=
  buildSylsGo f chunks 0 0 [] []

/-- A word (class `Word`): a whitespace-delimited token of the stripped
text, timed as the line.  Geometry attributes unassigned are `none`. -/
structure WordE where
  i : Nat
  start_time : Int
  end_time : Int
  duration : Int
  text : Str
  prespace : Nat
  postspace : Nat
  width : Option ℚ := none
  height : Option ℚ := none
  ascent : Option ℚ := none
  descent : Option ℚ := none
  internal_leading : Option ℚ := none
  external_leading : Option ℚ := none
  left : Option ℚ := none
  center : Option ℚ := none
  right : Option ℚ := none
  x : Option ℚ := none
  top : Option ℚ := none
  middle : Option ℚ := none
  bottom : Option ℚ := none
  y : Option ℚ := none
deriving DecidableEq

/-- The source's word-building loop over `re.findall` triples: index,
line timing, token text, surrounding space counts, measurement and font
metrics. -/
def buildWordsGo (f : FontM) (st et dur : Int) :
    Nat → List (Nat × Str × Nat) → List WordE
  | _, [] => []
  | wi, (pre, tok, post) :: rest =>
    { i := wi, start_time := st, end_time := et, duration := dur,
      text := tok, prespace := pre, postspace := post,
      width := some (f.extents tok).1, height := some (f.extents tok).2,
      ascent := some f.metrics.1, descent := some f.metrics.2.1,
      internal_leading := some f.metrics.2.2.1,
      external_leading := some f.metrics.2.2.2 }
      :: buildWordsGo f st et dur (wi + 1) rest

/-- `line.words` for a line with resolved style. -/
def buildWords (f : FontM) (st et dur : Int) (text : Str) : List WordE :=
  buildWordsGo f st et dur 0 (findWords text)

/-- A character (class `Char` of the source): one character of a syllable
(preferred) or word, carrying the owning indices.  `syl_i`/`syl_char_i`
are assigned only when the line has syllables; the source never assigns
`prespace`/`postspace` on characters.  Geometry attributes unassigned are
`none`. -/
structure CharE where
  i : Nat
  word_i : Nat
  syl_i : Option Nat := none
  syl_char_i : Option Nat := none
  start_time : Int
  end_time : Int
  duration : Int
  text : Char
  width : Option ℚ := none
  height : Option ℚ := none
  ascent : Option ℚ := none
  descent : Option ℚ := none
  internal_leading : Option ℚ := none
  external_leading : Option ℚ := none
  left : Option ℚ := none
  center : Option ℚ := none
  right : Option ℚ := none
  x : Option ℚ := none
  top : Option ℚ := none
  middle : Option ℚ := none
  bottom : Option ℚ := none
  y : Option ℚ := none
deriving DecidableEq

/-- The "padded" text of a word or syllable used for character
segmentation: prespace spaces, the text, postspace spaces. -/
def padText (pre : Nat) (t : Str) (post : Nat) : Str :=
  List.replicate pre ' ' ++ t ++ List.replicate post ' '

/-- Characters of one syllable: global index `gi`, intra-syllable index
`ci`. -/
def charsOfSylGo (f : FontM) (s : SylE) : Nat → Nat → Str → List CharE
  | _, _, [] => []
  | gi, ci, c :: rest =>
    { i := gi, word_i := s.word_i, syl_i := some s.i, syl_char_i := some ci,
      start_time := s.start_time, end_time := s.end_time,
      duration := s.duration, text := c,
      width := some (f.extents [c]).1, height := some (f.extents [c]).2,
      ascent := some f.metrics.1, descent := some f.metrics.2.1,
      internal_leading := some f.metrics.2.2.1,
      external_leading := some f.metrics.2.2.2 }
      :: charsOfSylGo f s (gi + 1) (ci + 1) rest

/-- `line.chars` from the syllable list. -/
def buildCharsS (f : FontM) : Nat → List SylE → List CharE
  | _, [] => []
  | gi, s :: rest =>
    let cs := charsOfSylGo f s gi 0 (padText s.prespace s.text s.postspace)
    cs ++ buildCharsS f (gi + cs.length) rest

/-- Characters of one word: global index `gi`; `word_i` is the word's own
index and the syllable indices stay unassigned. -/
def charsOfWordGo (f : FontM) (w : WordE) : Nat → Str → List CharE
  | _, [] => []
  | gi, c :: rest =>
    { i := gi, word_i := w.i,
      start_time := w.start_time, end_time := w.end_time,
      duration := w.duration, text := c,
      width := some (f.extents [c]).1, height := some (f.extents [c]).2,
      ascent := some f.metrics.1, descent := some f.metrics.2.1,
      internal_leading := some f.metrics.2.2.1,
      external_leading := some f.metrics.2.2.2 }
      :: charsOfWordGo f w (gi + 1) rest

/-- `line.chars` from the word list. -/
def buildCharsW (f : FontM) : Nat → List WordE → List CharE
  | _, [] => []
  | gi, w :: rest =>
    let cs := charsOfWordGo f w gi (padText w.prespace w.text w.postspace)
    cs ++ buildCharsW f (gi + cs.length) rest

/-- The style attributes used by the layout pass (class `Style`). -/
structure StyleR where
  spacing : ℚ
  alignment : Int
  margin_l : Int
  margin_r : Int
  margin_v : Int
deriving DecidableEq

/-- The eight positional attributes of an element. -/
structure PosR where
  left : ℚ
  center : ℚ
  right : ℚ
  x : ℚ
  top : ℚ
  middle : ℚ
  bottom : ℚ
  y : ℚ
deriving DecidableEq

/-- `max(acc, width)` fold of the source's vertical-kanji passes, started
at 0. -/
def maxW {α : Type} (g : α → Option ℚ) (l : List α) : ℚ :=
  l.foldl (fun m x => max m ((g x).getD 0)) 0

/-- Height sum fold of the source's vertical-kanji passes, started at 0. -/
def sumH {α : Type} (g : α → Option ℚ) (l : List α) : ℚ :=
  l.foldl (fun s x => s + (g x).getD 0) 0

/-- The line's own position block (source lines 645–702): horizontal
placement by alignment column with the line margins overriding zero style
margins, vertical placement by alignment row. -/
def mkLinePos (resx resy : Int) (st : StyleR) (ml mr mv : Int)
    (w h : ℚ) : PosR :=
  let tml : ℚ := if ml ≠ 0 then (ml : ℚ) else (st.margin_l : ℚ)
  let tmr : ℚ := if mr ≠ 0 then (mr : ℚ) else (st.margin_r : ℚ)
  let hor : ℚ × ℚ × ℚ × ℚ :=
    if (st.alignment - 1) % 3 = 0 then
      (tml, tml + w / 2, tml + w, tml)
    else if (st.alignment - 2) % 3 = 0 then
      let l := (resx : ℚ) / 2 - w / 2 + tml / 2 - tmr / 2
      (l, l + w / 2, l + w, l + w / 2)
    else
      let l := (resx : ℚ) - tmr - w
      (l, l + w / 2, l + w, l + w)
  let tmv : ℚ := if mv ≠ 0 then (mv : ℚ) else (st.margin_v : ℚ)
  let ver : ℚ × ℚ × ℚ × ℚ :=
    if st.alignment > 6 then
      (tmv, tmv + h / 2, tmv + h, tmv)
    else if st.alignment > 3 then
      let t := (resy : ℚ) / 2 - h / 2
      (t, t + h / 2, t + h, t + h / 2)
    else
      let t := (resy : ℚ) - tmv - h
      (t, t + h / 2, t + h, t + h)
  ⟨hor.1, hor.2.1, hor.2.2.1, hor.2.2.2, ver.1, ver.2.1, ver.2.2.1, ver.2.2.2⟩

/-- Horizontal cursor walk over the words (source lines 742–773): advance
by prespace·(space width + spacing), place, advance by width +
postspace·(space width + spacing) + spacing; vertical coordinates are the
line's. -/
def wordLayoutH (a : Int) (sw sp : ℚ) (lp : PosR) : ℚ → List WordE → List WordE
  | _, [] => []
  | cx, w :: ws =>
    let l := cx + (w.prespace : ℚ) * (sw + sp)
    let wd := (w.width).getD 0
    let xv : ℚ :=
      if (a - 1) % 3 = 0 then l
      else if (a - 2) % 3 = 0 then l + wd / 2
      else l + wd
    { w with
      left := some l
      center := some (l + wd / 2)
      right := some (l + wd)
      x := some xv
      top := some lp.top
      middle := some lp.middle
      bottom := some lp.bottom
      y := some lp.y }
      :: wordLayoutH a sw sp lp (l + wd + (w.postspace : ℚ) * (sw + sp) + sp) ws

/-- Vertical (kanji) stacking of the words (source lines 774–806): each
word centered in a column of the maximal word width, anchored at the
line's left / the play-resolution center / the line's right for alignment
4 / 5 / 6, stacked downward from the vertically centered start. -/
def wordLayoutV (a resx : Int) (lp : PosR) (mw : ℚ) : ℚ → List WordE → List WordE
  | _, [] => []
  | cy, w :: ws =>
    let wd := (w.width).getD 0
    let hh := (w.height).getD 0
    let xf := (mw - wd) / 2
    let lx : ℚ × ℚ :=
      if a = 4 then (lp.left + xf, lp.left + xf)
      else if a = 5 then ((resx : ℚ) / 2 - wd / 2, (resx : ℚ) / 2 - wd / 2 + wd / 2)
      else (lp.right - wd - xf, lp.right - xf)
    { w with
      left := some lx.1
      center := some (lx.1 + wd / 2)
      right := some (lx.1 + wd)
      x := some lx.2
      top := some cy
      middle := some (cy + hh / 2)
      bottom := some (cy + hh)
      y := some (cy + hh / 2) }
      :: wordLayoutV a resx lp mw (cy + hh) ws

/-- Horizontal cursor walk over the syllables (source lines 948–974). -/
def sylLayoutH (a : Int) (sw sp : ℚ) (lp : PosR) : ℚ → List SylE → List SylE
  | _, [] => []
  | cx, s :: ss =>
    let l := cx + (s.prespace : ℚ) * (sw + sp)
    let wd := (s.width).getD 0
    let xv : ℚ :=
      if (a - 1) % 3 = 0 then l
      else if (a - 2) % 3 = 0 then l + wd / 2
      else l + wd
    { s with
      left := some l
      center := some (l + wd / 2)
      right := some (l + wd)
      x := some xv
      top := some lp.top
      middle := some lp.middle
      bottom := some lp.bottom
      y := some lp.y }
      :: sylLayoutH a sw sp lp (l + wd + (s.postspace : ℚ) * (sw + sp) + sp) ss

/-- The line-position overwrite of the syllable vertical-kanji branch
(source lines 984–998): top/middle/bottom from the stacked column, then
alignment-dependent horizontal bounds from the maximal syllable width;
`x`/`y` are not touched. -/
def sylKanjiLine (a resy : Int) (lp : PosR) (mw sh : ℚ) : PosR :=
  let t := (resy : ℚ) / 2 - sh / 2
  let base := { lp with
    top := t
    middle := (resy : ℚ) / 2
    bottom := t + sh }
  if a = 4 then { base with
    center := lp.left + mw / 2
    right := lp.left + mw }
  else if a = 5 then { base with
    left := lp.center - mw / 2
    right := lp.center - mw / 2 + mw }
  else { base with
    left := lp.right - mw
    center := lp.right - mw + mw / 2 }

/-- Vertical (kanji) stacking of the syllables (source lines 1000–1024),
reading the line position after the overwrite. -/
def sylLayoutV (a : Int) (lp2 : PosR) (mw : ℚ) : ℚ → List SylE → List SylE
  | _, [] => []
  | cy, s :: ss =>
    let wd := (s.width).getD 0
    let hh := (s.height).getD 0
    let xf := (mw - wd) / 2
    let lx : ℚ × ℚ :=
      if a = 4 then (lp2.left + xf, lp2.left + xf)
      else if a = 5 then (lp2.center - wd / 2, lp2.center - wd / 2 + wd / 2)
      else (lp2.right - wd - xf, lp2.right - xf)
    { s with
      left := some lx.1
      center := some (lx.1 + wd / 2)
      right := some (lx.1 + wd)
      x := some lx.2
      top := some cy
      middle := some (cy + hh / 2)
      bottom := some (cy + hh)
      y := some (cy + hh / 2) }
      :: sylLayoutV a lp2 mw (cy + hh) ss

/-- Horizontal cursor walk over the characters (source lines 1075–1096):
advance by width + spacing only; vertical coordinates are the line's. -/
def charLayoutH (a : Int) (sp : ℚ) (lp : PosR) : ℚ → List CharE → List CharE
  | _, [] => []
  | cx, c :: cs =>
    let wd := (c.width).getD 0
    let xv : ℚ :=
      if (a - 1) % 3 = 0 then cx
      else if (a - 2) % 3 = 0 then cx + wd / 2
      else cx + wd
    { c with
      left := some cx
      center := some (cx + wd / 2)
      right := some (cx + wd)
      x := some xv
      top := some lp.top
      middle := some lp.middle
      bottom := some lp.bottom
      y := some lp.y }
      :: charLayoutH a sp lp (cx + wd + sp) cs

/-- Vertical stacking of the characters for middle-row alignments
(source lines 1097–1128). -/
def charLayoutV (a resx : Int) (lp : PosR) (mw : ℚ) : ℚ → List CharE → List CharE
  | _, [] => []
  | cy, c :: cs =>
    let wd := (c.width).getD 0
    let hh := (c.height).getD 0
    let xf := (mw - wd) / 2
    let lx : ℚ × ℚ :=
      if a = 4 then (lp.left + xf, lp.left + xf)
      else if a = 5 then ((resx : ℚ) / 2 - wd / 2, (resx : ℚ) / 2 - wd / 2 + wd / 2)
      else (lp.right - wd - xf, lp.right - xf)
    { c with
      left := some lx.1
      center := some (lx.1 + wd / 2)
      right := some (lx.1 + wd)
      x := some lx.2
      top := some cy
      middle := some (cy + hh / 2)
      bottom := some (cy + hh)
      y := some (cy + hh / 2) }
      :: charLayoutV a resx lp mw (cy + hh) cs

/-- The dialogue-record fields consumed by the extended pass. -/
structure PLineIn where
  start_time : Int
  end_time : Int
  margin_l : Int
  margin_r : Int
  margin_v : Int
  raw_text : Str
deriving DecidableEq

/-- The extended information computed for one line with a resolved style
(class `Line`, starred fields).  Geometry attributes unassigned are
`none`. -/
structure LineOut where
  duration : Int
  text : Str
  width : Option ℚ := none
  height : Option ℚ := none
  ascent : Option ℚ := none
  descent : Option ℚ := none
  internal_leading : Option ℚ := none
  external_leading : Option ℚ := none
  left : Option ℚ := none
  center : Option ℚ := none
  right : Option ℚ := none
  x : Option ℚ := none
  top : Option ℚ := none
  middle : Option ℚ := none
  bottom : Option ℚ := none
  y : Option ℚ := none
  words : List WordE := []
  syls : List SylE := []
  chars : List CharE := []
deriving DecidableEq

/-- The word-position pass (source lines 741–806): skipped for an empty
word list; a horizontal cursor walk from the line's left for alignments
outside 4–6; otherwise vertical stacking — the word pass does not consult
the vertical-kanji flag. -/
def wordPass (a resx resy : Int) (sw sp : ℚ) (lp : PosR)
    (words0 : List WordE) : List WordE :=
  if words0 = [] then words0
  else if a > 6 ∨ a < 4 then wordLayoutH a sw sp lp lp.left words0
  else
    wordLayoutV a resx lp (maxW (fun w => w.width) words0)
      ((resy : ℚ) / 2 - sumH (fun w => w.height) words0 / 2) words0

/-- The syllable-position pass (source lines 941–1024): skipped for an
empty syllable list; a horizontal cursor walk for alignments outside 4–6
or when the vertical-kanji flag is off; otherwise vertical stacking, which
also overwrites the line's width/height and position.  Returns the (new)
line width, height, position and the positioned syllables. -/
def sylPass (vk : Bool) (a resy : Int) (sw sp : ℚ) (lp : PosR)
    (lw lh : ℚ) (syls0 : List SylE) : ℚ × ℚ × PosR × List SylE :=
  if syls0 = [] then (lw, lh, lp, syls0)
  else if a > 6 ∨ a < 4 ∨ vk = false then
    (lw, lh, lp, sylLayoutH a sw sp lp lp.left syls0)
  else
    (maxW (fun s => s.width) syls0, sumH (fun s => s.height) syls0,
     sylKanjiLine a resy lp (maxW (fun s => s.width) syls0)
       (sumH (fun s => s.height) syls0),
     sylLayoutV a
       (sylKanjiLine a resy lp (maxW (fun s => s.width) syls0)
         (sumH (fun s => s.height) syls0))
       (maxW (fun s => s.width) syls0)
       ((resy : ℚ) / 2 - sumH (fun s => s.height) syls0 / 2) syls0)

/-- The character-position pass (source lines 1073–1128): skipped for an
empty character list; a horizontal cursor walk for alignments outside 4–6;
otherwise vertical stacking regardless of the vertical-kanji flag.  Reads
the line position left by the syllable pass. -/
def charPass (a resx resy : Int) (sp : ℚ) (lp2 : PosR)
    (chars0 : List CharE) : List CharE :=
  if chars0 = [] then chars0
  else if a > 6 ∨ a < 4 then charLayoutH a sp lp2 lp2.left chars0
  else
    charLayoutV a resx lp2 (maxW (fun c => c.width) chars0)
      ((resy : ℚ) / 2 - sumH (fun c => c.height) chars0 / 2) chars0

/-- The extended per-line computation when both play-resolution dimensions
are positive, in source order: line position, words and their layout,
chunks and syllables and their layout (possibly overwriting the line's
bounds), characters from syllables when present else words, and their
layout against the possibly overwritten line position. -/
def processLinePos (f : FontM) (vk : Bool) (resx resy : Int) (st : StyleR)
    (ln : PLineIn) : LineOut :=
  let text := stripTags ln.raw_text
  let lw := (f.extents text).1
  let lh := (f.extents text).2
  let dur := ln.end_time - ln.start_time
  let sw := (f.extents [' ']).1
  let sp := st.spacing
  let a := st.alignment
  let words0 := buildWords f ln.start_time ln.end_time dur text
  let syls0 := buildSyls f (buildChunks ln.raw_text)
  let lp := mkLinePos resx resy st ln.margin_l ln.margin_r ln.margin_v lw lh
  let words1 := wordPass a resx resy sw sp lp words0
  let kanji := sylPass vk a resy sw sp lp lw lh syls0
  let lw2 := kanji.1
  let lh2 := kanji.2.1
  let lp2 := kanji.2.2.1
  let syls1 := kanji.2.2.2
  let chars0 :=
    if syls1 ≠ [] then buildCharsS f 0 syls1 else buildCharsW f 0 words1
  let chars1 := charPass a resx resy sp lp2 chars0
  { duration := dur
    text := text
    width := some lw2
    height := some lh2
    ascent := some f.metrics.1
    descent := some f.metrics.2.1
    internal_leading := some f.metrics.2.2.1
    external_leading := some f.metrics.2.2.2
    left := some lp2.left
    center := some lp2.center
    right := some lp2.right
    x := some lp2.x
    top := some lp2.top
    middle := some lp2.middle
    bottom := some lp2.bottom
    y := some lp2.y
    words := words1
    syls := syls1
    chars := chars1 }

/-- The extended per-line computation when a play-resolution dimension is
nonpositive: the measurement, timing and segmentation fields are computed,
every positional pass is skipped. -/
def processLineNeg (f : FontM) (ln : PLineIn) : LineOut :=
  let text := stripTags ln.raw_text
  let dur := ln.end_time - ln.start_time
  let words0 := buildWords f ln.start_time ln.end_time dur text
  let syls0 := buildSyls f (buildChunks ln.raw_text)
  let chars0 :=
    if syls0 ≠ [] then buildCharsS f 0 syls0 else buildCharsW f 0 words0
  { duration := dur
    text := text
    width := some (f.extents text).1
    height := some (f.extents text).2
    ascent := some f.metrics.1
    descent := some f.metrics.2.1
    internal_leading := some f.metrics.2.2.1
    external_leading := some f.metrics.2.2.2
    words := words0
    syls := syls0
    chars := chars0 }

/-- The extended per-line computation of `Ass.__init__` (source lines
631–1128) for a line whose style name resolved. -/
def processLine (f : FontM) (vk : Bool) (resx resy : Int) (st : StyleR)
    (ln : PLineIn) : LineOut :=
  if resx > 0 ∧ resy > 0 then processLinePos f vk resx resy st ln
  else processLineNeg f ln

/-- The per-line fields used by the lead-time pass: the style name under
which the line is grouped (the raw name, also when unresolved) and its
times. -/
structure TLine where
  style : Str
  start_time : Int
  end_time : Int
deriving DecidableEq

/-- One step of building `lines_by_styles`: append the line to its style's
bucket, creating the bucket at the end on first occurrence (Python dicts
preserve insertion order). -/
def addToGroups : List (Str × List TLine) → TLine → List (Str × List TLine)
  | [], ln => [(ln.style, [ln])]
  | (s, g) :: rest, ln =>
    if s = ln.style then (s, g ++ [ln]) :: rest
    else (s, g) :: addToGroups rest ln

/-- `lines_by_styles` built over the whole line list in document order. -/
def groupByStyles (lines : List TLine) : List (Str × List TLine) :=
  lines.foldl addToGroups []

/-- One insertion of a stable insertion sort by start time: the new
element goes after every element with a smaller or equal key, so elements
with equal keys keep their original relative order — the extensional
behaviour of Python's stable `list.sort(key=lambda x: x.start_time)`. -/
def insSorted (x : TLine) : List TLine → List TLine
  | [] => [x]
  | y :: ys =>
    if y.start_time ≤ x.start_time then y :: insSorted x ys
    else x :: y :: ys

/-- Stable sort of a style group by start time. -/
def sortByStart (l : List TLine) : List TLine :=
  l.foldl (fun acc x => insSorted x acc) []

/-- The sentinel `1000.1` assigned to the first line's lead-in and the
last line's lead-out of each style group. -/
def sentinelLead : ℚ := 10001 / 10

/-- A line with its computed lead-in and lead-out (milliseconds). -/
structure LeadLine where
  line : TLine
  leadin : ℚ
  leadout : ℚ
deriving DecidableEq

/-- The lead-in of a line given the previous line's end time in the sorted
group, the sentinel when there is none. -/
def leadinOf (prev : Option Int) (x : TLine) : ℚ :=
  match prev with
  | none => sentinelLead
  | some e => ((x.start_time - e : Int) : ℚ)

/-- The lead-time loop over one sorted style group (source lines
1133–1143): lead-in from the previous line's end (sentinel for the first),
lead-out from the next line's start (sentinel for the last). -/
def leadsGo (prev : Option Int) : List TLine → List LeadLine
  | [] => []
  | [x] => [⟨x, leadinOf prev x, sentinelLead⟩]
  | x :: y :: rest =>
    ⟨x, leadinOf prev x, ((y.start_time - x.end_time : Int) : ℚ)⟩
      :: leadsGo (some x.end_time) (y :: rest)

/-- The whole lead-time pass: group by style name, sort each group by
start time (stably), then assign lead-ins/lead-outs within each group. -/
def processLeads (lines : List TLine) : List (Str × List LeadLine) :=
  (groupByStyles lines).map (fun g => (g.1, leadsGo none (sortByStart g.2)))

/-- The fields of a `Line` value consumed by `Ass.write_line`. -/
structure LineW where
  comment : Bool
  layer : Int
  start_time : Int
  end_time : Int
  style : Str
  actor : Str
  margin_l : Int
  margin_r : Int
  margin_v : Int
  effect : Str
  text : Str
deriving DecidableEq

/-- An argument passed to `write_line`: either a `Line` object or any
value of another type. -/
inductive WInput where
  | line (l : LineW)
  | notLine
deriving DecidableEq

/-- The exception raised by `write_line` on a non-`Line` argument. -/
inductive PyError where
  | typeError
deriving DecidableEq

/-- The output accumulator (`self.__output`) and produced-line counter
(`self.__plines`) of an `Ass` object. -/
structure OutState where
  output : List Str
  plines : Nat
deriving DecidableEq

/-- Python `"%d" % n`. -/
def intToStr (n : Int) : Str :=
  if n < 0 then '-' :: (toString n.natAbs).toList
  else (toString n.natAbs).toList

/-- Zero padding to a given width. -/
def zpad (w : Nat) (s : Str) : Str :=
  List.replicate (w - s.length) '0' ++ s

/-- Python `"%04d" % n`: total width four, the sign included. -/
def pad4 (n : Int) : Str :=
  if n < 0 then '-' :: zpad 3 (toString n.natAbs).toList
  else zpad 4 (toString n.natAbs).toList

/-- The record string built by `write_line` from a `Line`, following
`"\n%s: %d,%s,%s,%s,%s,%04d,%04d,%04d,%s,%s"`: the kind, layer, the two
times clamped to be nonnegative before encoding by the external
`Convert.time` (the parameter `tenc`), style, actor, the three margins
zero-padded, effect and text. -/
def formatDialogue (tenc : Int → Str) (l : LineW) : Str :=
  '\n' :: (if l.comment then "Comment".toList else "Dialogue".toList)
    ++ ':' :: ' ' :: intToStr l.layer
    ++ ',' :: tenc (max 0 l.start_time)
    ++ ',' :: tenc (max 0 l.end_time)
    ++ ',' :: l.style
    ++ ',' :: l.actor
    ++ ',' :: pad4 l.margin_l
    ++ ',' :: pad4 l.margin_r
    ++ ',' :: pad4 l.margin_v
    ++ ',' :: l.effect
    ++ ',' :: l.text

/-- `Ass.write_line` (source lines 1153–1181): a `Line` argument appends
exactly one dialogue record to the output accumulator and increments the
produced-line counter; any other value raises `TypeError`, leaving the
state untouched. -/
def write_line (tenc : Int → Str) (st : OutState) :
    WInput → Except PyError OutState
  | .line l =>
    .ok { output := st.output ++ [formatDialogue tenc l]
          plines := st.plines + 1 }
  | .notLine => .error .typeError

/-- C10: for every input, `write_line` raises a `TypeError` on a non-Line
argument without touching the output accumulator or the produced-line
counter (no successor state is produced), and on a `Line` argument appends
exactly one record of the grammar
`Dialogue|Comment: <layer>,<start>,<end>,<style>,<actor>,<marginL>,<marginR>,<marginV>,<effect>,<text>`
— a comma-intercalated field list after the kind — with the start and end
times clamped to nonnegative values before time encoding, and increments
the counter by one. -/
theorem C10_write_line (tenc : Int → Str) (st : OutState) :
    write_line tenc st .notLine = .error .typeError
    ∧ ∀ l : LineW,
        write_line tenc st (.line l)
          = .ok
            { output := st.output ++
                ['\n' :: ((if l.comment then "Comment".toList else "Dialogue".toList)
                  ++ ": ".toList
                  ++ List.intercalate [',']
                      [intToStr l.layer,
                       tenc (max 0 l.start_time),
                       tenc (max 0 l.end_time),
                       l.style, l.actor,
                       pad4 l.margin_l, pad4 l.margin_r, pad4 l.margin_v,
                       l.effect, l.text])]
              plines := st.plines + 1 } := by
  constructor
  · rfl
  · intro l
    simp only [write_line, formatDialogue, List.intercalate, List.intersperse,
      List.flatten, Except.ok.injEq, OutState.mk.injEq, List.append_nil,
      List.nil_append, List.cons_append, List.append_assoc]
    all_goals trivial

theorem mem_insSorted {z x : TLine} : ∀ {l : List TLine},
    z ∈ insSorted x l ↔ z = x ∨ z ∈ l
  | [] => by simp [insSorted]
  | y :: ys => by
    rw [show insSorted x (y :: ys)
        = if y.start_time ≤ x.start_time then y :: insSorted x ys
          else x :: y :: ys from rfl]
    split
    · rw [List.mem_cons, @mem_insSorted z x ys, List.mem_cons]
      tauto
    · rw [List.mem_cons, List.mem_cons]
      try tauto

theorem insSorted_pairwise {x : TLine} : ∀ {l : List TLine},
    List.Pairwise (fun a b => a.start_time ≤ b.start_time) l →
    List.Pairwise (fun a b => a.start_time ≤ b.start_time) (insSorted x l) := by
  intro l h
  induction l with
  | nil => simp [insSorted]
  | cons y ys ih =>
    rw [show insSorted x (y :: ys)
        = if y.start_time ≤ x.start_time then y :: insSorted x ys
          else x :: y :: ys from rfl]
    rw [List.pairwise_cons] at h
    obtain ⟨hy, hys⟩ := h
    split
    · rename_i hle
      rw [List.pairwise_cons]
      refine ⟨?_, ih hys⟩
      intro z hz
      rw [mem_insSorted] at hz
      rcases hz with rfl | hz
      · exact hle
      · exact hy z hz
    · rename_i hgt
      rw [List.pairwise_cons]
      refine ⟨?_, List.pairwise_cons.mpr ⟨hy, hys⟩⟩
      intro z hz
      rcases List.mem_cons.mp hz with rfl | hz
      · omega
      · have := hy z hz
        omega

theorem insSorted_filter (x : TLine) (v : Int) : ∀ (l : List TLine),
    List.Pairwise (fun a b => a.start_time ≤ b.start_time) l →
    (insSorted x l).filter (fun y => y.start_time = v)
      = l.filter (fun y => y.start_time = v)
        ++ if x.start_time = v then [x] else [] := by
  intro l h
  induction l with
  | nil => by_cases hx : x.start_time = v <;> simp [insSorted, hx]
  | cons y ys ih =>
    rw [show insSorted x (y :: ys)
        = if y.start_time ≤ x.start_time then y :: insSorted x ys
          else x :: y :: ys from rfl]
    rw [List.pairwise_cons] at h
    obtain ⟨hy, hys⟩ := h
    split
    · rename_i hle
      by_cases hyv : y.start_time = v
      · rw [List.filter_cons_of_pos (by simp [hyv]),
          List.filter_cons_of_pos (by simp [hyv]), ih hys, List.cons_append]
      · rw [List.filter_cons_of_neg (by simp [hyv]),
          List.filter_cons_of_neg (by simp [hyv]), ih hys]
    · rename_i hgt
      by_cases hxv : x.start_time = v
      · have hnil : (y :: ys).filter (fun z => z.start_time = v) = [] := by
          rw [List.filter_eq_nil_iff]
          intro z hz
          rcases List.mem_cons.mp hz with rfl | hz
          · simp only [decide_eq_true_eq]
            omega
          · have := hy z hz
            simp only [decide_eq_true_eq]
            omega
        rw [List.filter_cons_of_pos (by simp [hxv]), hnil, if_pos hxv]
        simp
      · rw [List.filter_cons_of_neg (by simp [hxv]), if_neg hxv,
          List.append_nil]

theorem sortGo_pairwise : ∀ (l acc : List TLine),
    List.Pairwise (fun a b => a.start_time ≤ b.start_time) acc →
    List.Pairwise (fun a b => a.start_time ≤ b.start_time)
      (l.foldl (fun acc x => insSorted x acc) acc)
  | [], _, h => h
  | x :: xs, acc, h =>
    sortGo_pairwise xs (insSorted x acc) (insSorted_pairwise h)

theorem sortByStart_pairwise (l : List TLine) :
    List.Pairwise (fun a b => a.start_time ≤ b.start_time) (sortByStart l) :=
  sortGo_pairwise l [] List.Pairwise.nil

theorem sortGo_filter (v : Int) : ∀ (l acc : List TLine),
    List.Pairwise (fun a b => a.start_time ≤ b.start_time) acc →
    (l.foldl (fun acc x => insSorted x acc) acc).filter
        (fun y => y.start_time = v)
      = acc.filter (fun y => y.start_time = v)
        ++ l.filter (fun y => y.start_time = v)
  | [], acc, h => by simp
  | x :: xs, acc, h => by
    show ((xs.foldl (fun acc x => insSorted x acc) (insSorted x acc)).filter
        (fun y => y.start_time = v)) = _
    rw [sortGo_filter v xs (insSorted x acc) (insSorted_pairwise h),
      insSorted_filter x v acc h, List.append_assoc]
    by_cases hxv : x.start_time = v
    · rw [if_pos hxv, List.filter_cons_of_pos (by simp [hxv])]
      rfl
    · rw [if_neg hxv, List.filter_cons_of_neg (by simp [hxv])]
      rfl

/-- Stability of the group sort: for every start-time value, the sorted
group lists the lines of that start time in their original order. -/
theorem sortByStart_stable (l : List TLine) (v : Int) :
    (sortByStart l).filter (fun y => y.start_time = v)
      = l.filter (fun y => y.start_time = v) := by
  rw [show sortByStart l = l.foldl (fun acc x => insSorted x acc) [] from rfl,
    sortGo_filter v l [] List.Pairwise.nil]
  rfl

theorem leadsGo_map : ∀ (prev : Option Int) (l : List TLine),
    (leadsGo prev l).map (fun e => e.line) = l
  | _, [] => rfl
  | _, [x] => rfl
  | prev, x :: y :: rest => by
    show x :: (leadsGo (some x.end_time) (y :: rest)).map (fun e => e.line)
        = x :: y :: rest
    rw [leadsGo_map (some x.end_time) (y :: rest)]

theorem leadsGo_len (prev : Option Int) (l : List TLine) :
    (leadsGo prev l).length = l.length := by
  have := congrArg List.length (leadsGo_map prev l)
  rw [List.length_map] at this
  exact this

theorem leadsGo_head_leadin : ∀ (prev : Option Int) (x : TLine)
    (tl : List TLine) (h : 0 < (leadsGo prev (x :: tl)).length),
    ((leadsGo prev (x :: tl)).get ⟨0, h⟩).leadin = leadinOf prev x
  | _, _, [], _ => rfl
  | _, _, _ :: _, _ => rfl

theorem leadsGo_leadin_succ : ∀ (prev : Option Int) (l : List TLine)
    (i : Nat) (hi : i + 1 < l.length),
    ((leadsGo prev l).get ⟨i + 1, by rw [leadsGo_len]; exact hi⟩).leadin
      = (((l.get ⟨i + 1, hi⟩).start_time
          - (l.get ⟨i, by omega⟩).end_time : Int) : ℚ)
  | prev, x :: y :: rest, 0, hi => by
    show ((leadsGo (some x.end_time) (y :: rest)).get
        ⟨0, by rw [leadsGo_len]; simp⟩).leadin = _
    rw [leadsGo_head_leadin (some x.end_time) y rest]
    rfl
  | prev, x :: y :: rest, i + 1, hi => by
    show ((leadsGo (some x.end_time) (y :: rest)).get
        ⟨i + 1, by rw [leadsGo_len]; simp only [List.length_cons] at hi ⊢; omega⟩).leadin = _
    rw [leadsGo_leadin_succ (some x.end_time) (y :: rest) i
      (by simp only [List.length_cons] at hi ⊢; omega)]
    rfl

theorem leadsGo_leadout : ∀ (prev : Option Int) (l : List TLine)
    (i : Nat) (hi : i + 1 < l.length),
    ((leadsGo prev l).get ⟨i, by rw [leadsGo_len]; omega⟩).leadout
      = (((l.get ⟨i + 1, hi⟩).start_time
          - (l.get ⟨i, by omega⟩).end_time : Int) : ℚ)
  | prev, x :: y :: rest, 0, hi => rfl
  | prev, x :: y :: rest, i + 1, hi => by
    show ((leadsGo (some x.end_time) (y :: rest)).get
        ⟨i, by rw [leadsGo_len]; simp only [List.length_cons] at hi ⊢; omega⟩).leadout = _
    rw [leadsGo_leadout (some x.end_time) (y :: rest) i
      (by simp only [List.length_cons] at hi ⊢; omega)]
    rfl

theorem leadsGo_last_leadout : ∀ (prev : Option Int) (l : List TLine)
    (h : 0 < l.length),
    ((leadsGo prev l).get
        ⟨l.length - 1, by rw [leadsGo_len]; omega⟩).leadout = sentinelLead
  | _, [x], _ => rfl
  | prev, x :: y :: rest, _ => by
    show ((leadsGo (some x.end_time) (y :: rest)).get
        ⟨(y :: rest).length - 1, by rw [leadsGo_len]; simp⟩).leadout
      = sentinelLead
    exact leadsGo_last_leadout (some x.end_time) (y :: rest) (by simp)

theorem leadsGo_first_leadin (l : List TLine) (h : 0 < l.length) :
    ((leadsGo none l).get ⟨0, by rw [leadsGo_len]; omega⟩).leadin
      = sentinelLead := by
  cases l with
  | nil => simp at h
  | cons x tl => exact leadsGo_head_leadin none x tl _

/-- C9: after grouping all lines by style name and sorting each group
ascending by start time with the stable sort (ties keep document order:
the per-value filters of the sorted group equal those of the original
group), every line that is not first in its group has lead-in = its start
time minus the previous line's end time, every line that is not last has
lead-out = the next line's start time minus its end time, and the first
line's lead-in and the last line's lead-out are the sentinel 1000.1; a
single-line group gets the sentinel on both sides. -/
theorem C9_lead_times (lines : List TLine) (s : Str) (g : List TLine)
    (hg : (s, g) ∈ groupByStyles lines) :
    (s, leadsGo none (sortByStart g)) ∈ processLeads lines
    ∧ List.Pairwise (fun a b => a.start_time ≤ b.start_time) (sortByStart g)
    ∧ (∀ v : Int, (sortByStart g).filter (fun y => y.start_time = v)
        = g.filter (fun y => y.start_time = v))
    ∧ (leadsGo none (sortByStart g)).map (fun e => e.line) = sortByStart g
    ∧ (∀ i, ∀ hi : i + 1 < (sortByStart g).length,
        ((leadsGo none (sortByStart g)).get
            ⟨i + 1, by rw [leadsGo_len]; exact hi⟩).leadin
          = ((((sortByStart g).get ⟨i + 1, hi⟩).start_time
              - ((sortByStart g).get ⟨i, by omega⟩).end_time : Int) : ℚ)
        ∧ ((leadsGo none (sortByStart g)).get
            ⟨i, by rw [leadsGo_len]; omega⟩).leadout
          = ((((sortByStart g).get ⟨i + 1, hi⟩).start_time
              - ((sortByStart g).get ⟨i, by omega⟩).end_time : Int) : ℚ))
    ∧ (∀ _ : 0 < (sortByStart g).length,
        ((leadsGo none (sortByStart g)).get
            ⟨0, by rw [leadsGo_len]; omega⟩).leadin = sentinelLead
        ∧ ((leadsGo none (sortByStart g)).get
            ⟨(sortByStart g).length - 1, by rw [leadsGo_len]; omega⟩).leadout
          = sentinelLead) := by
  refine ⟨List.mem_map_of_mem _ hg, sortByStart_pairwise g,
    fun v => sortByStart_stable g v, leadsGo_map none (sortByStart g),
    fun i hi => ⟨leadsGo_leadin_succ none (sortByStart g) i hi,
      leadsGo_leadout none (sortByStart g) i hi⟩,
    fun h0 => ⟨leadsGo_first_leadin (sortByStart g) h0,
      leadsGo_last_leadout none (sortByStart g) h0⟩⟩

/-- Witness for C9 on a one-line, one-style document: the hypothesis is
discharged on a concrete input and the sentinel conjunct is extracted —
the single line's lead-in and lead-out are both the sentinel. -/
theorem C9_lead_times_witness :
    (("A".toList, [(⟨"A".toList, 0, 1000⟩ : TLine)])
        ∈ groupByStyles [(⟨"A".toList, 0, 1000⟩ : TLine)])
    ∧ (∀ _ : 0 < (sortByStart [(⟨"A".toList, 0, 1000⟩ : TLine)]).length,
        ((leadsGo none (sortByStart [(⟨"A".toList, 0, 1000⟩ : TLine)])).get
            ⟨0, by rw [leadsGo_len]; omega⟩).leadin = sentinelLead
        ∧ ((leadsGo none (sortByStart [(⟨"A".toList, 0, 1000⟩ : TLine)])).get
            ⟨(sortByStart [(⟨"A".toList, 0, 1000⟩ : TLine)]).length - 1,
              by rw [leadsGo_len]; omega⟩).leadout = sentinelLead) :=
  ⟨by decide,
   (C9_lead_times [⟨"A".toList, 0, 1000⟩] ("A".toList)
     [⟨"A".toList, 0, 1000⟩] (by decide)).2.2.2.2.2⟩

/-- A concrete font-metrics instance for concrete runs: width = character
count, height 10, metrics (8, 2, 0, 0). -/
def testFont : FontM := ⟨fun t => ((t.length : ℚ), 10), (8, 2, 0, 0)⟩

/-- A concrete style for concrete runs: no extra spacing, margins 10. -/
def testStyle (a : Int) : StyleR := ⟨0, a, 10, 10, 10⟩

/-- Counterexample for C5: on the line `Hi there` (alignment 2, resolved
style, positive play resolution) the two words do not get the claimed
prespace/postspace pairs (0,0) and (0,0) — the internal space is counted
as the first word's postspace. -/
theorem C5_cex :
    ((processLine testFont true 1280 720 (testStyle 2)
        ⟨0, 1000, 0, 0, 0, "Hi there".toList⟩).words.map
      (fun w => (w.prespace, w.postspace))) ≠ [(0, 0), (0, 0)] := by
  decide

/-- C5 (amended): the line `Hi there` produces an empty syllable sequence
and exactly the two words `Hi` and `there`, with the single internal space
attributed as word 0's postspace: prespace/postspace = 0/1 for word 0 and
0/0 for word 1. -/
theorem C5_words_hi_there :
    (processLine testFont true 1280 720 (testStyle 2)
        ⟨0, 1000, 0, 0, 0, "Hi there".toList⟩).syls = []
    ∧ (processLine testFont true 1280 720 (testStyle 2)
        ⟨0, 1000, 0, 0, 0, "Hi there".toList⟩).words.map
        (fun w => (w.text, w.prespace, w.postspace))
      = [("Hi".toList, 0, 1), ("there".toList, 0, 0)] := by
  decide

theorem chunkLoopF_word_i : ∀ (n : Nat) (cont rest : Str) (wi : Nat)
    (j : Nat) (tc : TextChunk),
    (chunkLoopF n cont rest wi).get? j = some tc →
    tc.word_i = some (wi + (((chunkLoopF n cont rest wi).take j).filter
        (fun tc => matchTrailingSpace tc.text)).length)
  | 0, cont, rest, wi, 0, tc, hj => by
    simp only [chunkLoopF, List.get?] at hj
    rw [Option.some_inj] at hj
    subst hj
    rfl
  | 0, cont, rest, wi, j + 1, tc, hj => by
    simp [chunkLoopF, List.get?] at hj
  | n + 1, cont, rest, wi, j, tc, hj => by
    rw [show chunkLoopF (n + 1) cont rest wi
        = (match findTagRun rest with
           | none => [⟨cont, rest, some wi⟩]
           | some (p, cont2, rest2) =>
             ⟨cont, p, some wi⟩ ::
               chunkLoopF n cont2 rest2
                 (if matchTrailingSpace p then wi + 1 else wi)) from rfl] at hj ⊢
    revert hj
    cases hf : findTagRun rest with
    | none =>
      intro hj
      match j, hj with
      | 0, hj =>
        rw [show ([(⟨cont, rest, some wi⟩ : TextChunk)].get? 0
            = some ⟨cont, rest, some wi⟩) from rfl, Option.some_inj] at hj
        subst hj
        rfl
      | j + 1, hj => simp [List.get?] at hj
    | some t =>
      obtain ⟨p, cont2, rest2⟩ := t
      intro hj
      match j, hj with
      | 0, hj =>
        rw [show ((⟨cont, p, some wi⟩ :: chunkLoopF n cont2 rest2
            (if matchTrailingSpace p then wi + 1 else wi)).get? 0
            = some (⟨cont, p, some wi⟩ : TextChunk)) from rfl,
          Option.some_inj] at hj
        subst hj
        rfl
      | j + 1, hj =>
        have hj2 : (chunkLoopF n cont2 rest2
            (if matchTrailingSpace p then wi + 1 else wi)).get? j = some tc := hj
        rw [chunkLoopF_word_i n cont2 rest2 _ j tc hj2]
        rw [show ((⟨cont, p, some wi⟩ :: chunkLoopF n cont2 rest2
            (if matchTrailingSpace p then wi + 1 else wi)).take (j + 1))
            = (⟨cont, p, some wi⟩ : TextChunk) :: ((chunkLoopF n cont2 rest2
              (if matchTrailingSpace p then wi + 1 else wi)).take j) from rfl]
        by_cases hp : matchTrailingSpace p
        · rw [if_pos hp, List.filter_cons_of_pos (by simpa using hp)]
          simp only [List.length_cons, Option.some_inj]
          omega
        · rw [if_neg hp, List.filter_cons_of_neg (by simpa using hp)]

theorem chunkLoopF_word_i_isSome : ∀ (n : Nat) (cont rest : Str) (wi : Nat),
    ∀ tc ∈ chunkLoopF n cont rest wi, tc.word_i.isSome
  | 0, cont, rest, wi, tc, htc => by
    simp only [chunkLoopF, List.mem_singleton] at htc
    subst htc
    rfl
  | n + 1, cont, rest, wi, tc, htc => by
    rw [show chunkLoopF (n + 1) cont rest wi
        = (match findTagRun rest with
           | none => [⟨cont, rest, some wi⟩]
           | some (p, cont2, rest2) =>
             ⟨cont, p, some wi⟩ ::
               chunkLoopF n cont2 rest2
                 (if matchTrailingSpace p then wi + 1 else wi)) from rfl] at htc
    revert htc
    cases hf : findTagRun rest with
    | none =>
      intro htc
      simp only [List.mem_singleton] at htc
      subst htc
      rfl
    | some t =>
      obtain ⟨p, cont2, rest2⟩ := t
      intro htc
      rcases List.mem_cons.mp htc with rfl | htc
      · rfl
      · exact chunkLoopF_word_i_isSome n cont2 rest2 _ tc htc

theorem buildChunks_none_tags (raw : Str) :
    ∀ tc ∈ buildChunks raw, tc.word_i = none → tc.tags = [] := by
  intro tc htc hn
  rw [show buildChunks raw
      = (match findTagRun raw with
         | none => [⟨[], raw, none⟩]
         | some (p, cont, rest) =>
           (if p = [] then [] else [⟨[], p, none⟩])
             ++ chunkLoopF (rest.length + 1) cont rest 0) from rfl] at htc
  revert htc
  cases hf : findTagRun raw with
  | none =>
    intro htc
    simp only [List.mem_singleton] at htc
    subst htc
    rfl
  | some t =>
    obtain ⟨p, cont, rest⟩ := t
    intro htc
    rcases List.mem_append.mp htc with htc | htc
    · split at htc
      · simp at htc
      · simp only [List.mem_singleton] at htc
        subst htc
        rfl
    · have := chunkLoopF_word_i_isSome (rest.length + 1) cont rest 0 tc htc
      rw [hn] at this
      exact absurd this (by simp)

theorem peelF_word_i : ∀ (n : Nat) (wi si : Nat) (last : Int) (t : Str),
    ∀ p ∈ (peelF n wi si last t).1, p.word_i = wi
  | 0, wi, si, last, t, p, hp => by simp [peelF] at hp
  | n + 1, wi, si, last, t, p, hp => by
    rw [show (peelF (n + 1) wi si last t).1
        = (match kMatch t with
           | none => ([], t, si, last)
           | some (pre, d, post) =>
             ((⟨si, wi, last, last + (d : Int) * 10, (d : Int) * 10, pre⟩ :
                 ProtoSyl)
               :: (peelF n wi (si + 1) (last + (d : Int) * 10) post).1,
              (peelF n wi (si + 1) (last + (d : Int) * 10) post).2)).1
        from rfl] at hp
    revert hp
    cases hk : kMatch t with
    | none => intro hp; simp at hp
    | some tr =>
      obtain ⟨pre, d, post⟩ := tr
      intro hp
      rcases List.mem_cons.mp hp with rfl | hp
      · rfl
      · exact peelF_word_i n wi (si + 1) (last + (d : Int) * 10) post p hp

theorem finalizeChunk_word_i (f : FontM) (leftover txt : Str) (wi : Nat) :
    ∀ (protos : List ProtoSyl) (fx : Str),
    (∀ p ∈ protos, p.word_i = wi) →
    ∀ s ∈ (finalizeChunk f leftover txt fx protos).1, s.word_i = wi
  | [], fx, hall, s, hs => by simp [finalizeChunk] at hs
  | [p], fx, hall, s, hs => by
    simp only [finalizeChunk, List.mem_singleton] at hs
    subst hs
    show p.word_i = wi
    exact hall p (by simp)
  | p :: q :: rest, fx, hall, s, hs => by
    rw [show (finalizeChunk f leftover txt fx (p :: q :: rest)).1
        = (hiddenSyl f fx p).1
          :: (finalizeChunk f leftover txt (hiddenSyl f fx p).2 (q :: rest)).1
        from rfl] at hs
    rcases List.mem_cons.mp hs with rfl | hs
    · show p.word_i = wi
      exact hall p (by simp)
    · exact finalizeChunk_word_i f leftover txt wi (q :: rest)
        (hiddenSyl f fx p).2 (fun r hr => hall r (List.mem_cons_of_mem p hr))
        s hs

theorem chunkSyls_word_i (f : FontM) (tc : TextChunk) (si : Nat)
    (last : Int) (fx : Str) :
    ∀ s ∈ (chunkSyls f tc si last fx).1, s.word_i = tc.word_i.getD 0 := by
  intro s hs
  have hp := peelF_word_i (tc.tags.length + 1) (tc.word_i.getD 0) si last
    tc.tags
  exact finalizeChunk_word_i f
    (peel (tc.word_i.getD 0) si last tc.tags).2.1 tc.text (tc.word_i.getD 0)
    (peel (tc.word_i.getD 0) si last tc.tags).1 fx hp s hs

/-- Counterexample for C4: on the raw text `a {\k5}b` the leading chunk
(text before the first tag run) carries no owning-word index at all, and
the following tag chunk has index 0 — the leading chunk's trailing
whitespace did not increment the counter as the claim requires. -/
theorem C4_cex :
    buildChunks ("a \x7b\\k5\x7db".toList)
      = [⟨[], "a ".toList, none⟩, ⟨"\\k5".toList, "b".toList, some 0⟩]
    ∧ ¬ (∀ tc ∈ buildChunks ("a \x7b\\k5\x7db".toList), tc.word_i.isSome) := by
  constructor
  · decide
  · decide

/-- C4 (amended): the owning-word index of the chunks emitted by the
scanning loop starts at the loop's initial value and increments exactly
after each loop chunk whose trailing text ends in whitespace — chunk `j`
carries the initial value plus the number of earlier loop chunks with
trailing whitespace; the chunks created outside the loop (the no-tag chunk
and a leading chunk for text before the first tag run) carry no index and
do not increment the counter; every keyless chunk has empty tags, but not
conversely — an empty tag run, as in the raw text `{}a`, makes the loop
emit a chunk with empty tags that still carries index 0; every syllable
produced from a chunk carries that chunk's index; and the line
`{\k50}Hel{\k30}lo {\k40}world` yields three syllables with owning words
0, 0, 1, durations 500/300/400 ms, and stripped text `Hello world`. -/
theorem C4_word_indices :
    (∀ (n : Nat) (cont rest : Str) (wi j : Nat) (tc : TextChunk),
        (chunkLoopF n cont rest wi).get? j = some tc →
        tc.word_i = some (wi + (((chunkLoopF n cont rest wi).take j).filter
            (fun tc => matchTrailingSpace tc.text)).length))
    ∧ (∀ raw : Str, ∀ tc ∈ buildChunks raw, tc.word_i = none → tc.tags = [])
    ∧ (∀ (f : FontM) (tc : TextChunk) (si : Nat) (last : Int) (fx : Str),
        ∀ s ∈ (chunkSyls f tc si last fx).1, s.word_i = tc.word_i.getD 0)
    ∧ ((processLine testFont true 1280 720 (testStyle 2)
          ⟨0, 1000, 0, 0, 0,
            ("\x7b\\k50\x7dHel\x7b\\k30\x7dlo \x7b\\k40\x7dworld").toList⟩).syls.map
        (fun s => (s.word_i, s.duration)) = [(0, 500), (0, 300), (1, 400)])
    ∧ (processLine testFont true 1280 720 (testStyle 2)
          ⟨0, 1000, 0, 0, 0,
            ("\x7b\\k50\x7dHel\x7b\\k30\x7dlo \x7b\\k40\x7dworld").toList⟩).text
        = "Hello world".toList
    ∧ buildChunks ("\x7b\x7da".toList) = [⟨[], "a".toList, some 0⟩] :=
  ⟨chunkLoopF_word_i, buildChunks_none_tags, chunkSyls_word_i,
   by decide, by decide, by decide⟩

/-- Witness for C4 (amended) at a concrete loop state: the second loop
chunk of tags `\k5` with remaining text `a {\k6}b` carries index 1, the
increment caused by the first chunk's trailing space. -/
theorem C4_word_indices_witness :
    ((chunkLoopF 9 ("\\k5".toList) ("a \x7b\\k6\x7db".toList) 0).get? 1
        = some ⟨"\\k6".toList, "b".toList, some 1⟩)
    ∧ (⟨"\\k6".toList, "b".toList, some 1⟩ : TextChunk).word_i
        = some (0 + (((chunkLoopF 9 ("\\k5".toList)
            ("a \x7b\\k6\x7db".toList) 0).take 1).filter
            (fun tc => matchTrailingSpace tc.text)).length) :=
  ⟨by decide,
   C4_word_indices.1 9 ("\\k5".toList) ("a \x7b\\k6\x7db".toList) 0 1
     ⟨"\\k6".toList, "b".toList, some 1⟩ (by decide)⟩

/-- All positional attributes of a word unassigned. -/
def posUnsetW (w : WordE) : Prop :=
  w.left = none ∧ w.center = none ∧ w.right = none ∧ w.x = none
    ∧ w.top = none ∧ w.middle = none ∧ w.bottom = none ∧ w.y = none

/-- The measurement attributes of a word assigned. -/
def measuredW (w : WordE) : Prop :=
  w.width.isSome ∧ w.height.isSome ∧ w.ascent.isSome ∧ w.descent.isSome
    ∧ w.internal_leading.isSome ∧ w.external_leading.isSome

/-- All positional attributes of a syllable unassigned. -/
def posUnsetS (s : SylE) : Prop :=
  s.left = none ∧ s.center = none ∧ s.right = none ∧ s.x = none
    ∧ s.top = none ∧ s.middle = none ∧ s.bottom = none ∧ s.y = none

/-- The measurement attributes of a syllable assigned. -/
def measuredS (s : SylE) : Prop :=
  s.width.isSome ∧ s.height.isSome ∧ s.ascent.isSome ∧ s.descent.isSome
    ∧ s.internal_leading.isSome ∧ s.external_leading.isSome

/-- All positional attributes of a character unassigned. -/
def posUnsetC (c : CharE) : Prop :=
  c.left = none ∧ c.center = none ∧ c.right = none ∧ c.x = none
    ∧ c.top = none ∧ c.middle = none ∧ c.bottom = none ∧ c.y = none

/-- The measurement attributes of a character assigned. -/
def measuredC (c : CharE) : Prop :=
  c.width.isSome ∧ c.height.isSome ∧ c.ascent.isSome ∧ c.descent.isSome
    ∧ c.internal_leading.isSome ∧ c.external_leading.isSome

theorem buildWordsGo_fields (f : FontM) (st et dur : Int) :
    ∀ (trips : List (Nat × Str × Nat)) (wi : Nat),
    ∀ w ∈ buildWordsGo f st et dur wi trips,
    posUnsetW w ∧ measuredW w
      ∧ w.start_time = st ∧ w.end_time = et ∧ w.duration = dur
  | [], wi, w, hw => by simp [buildWordsGo] at hw
  | (pre, tok, post) :: rest, wi, w, hw => by
    rcases List.mem_cons.mp hw with rfl | hw
    · exact ⟨⟨rfl, rfl, rfl, rfl, rfl, rfl, rfl, rfl⟩,
        ⟨rfl, rfl, rfl, rfl, rfl, rfl⟩, rfl, rfl, rfl⟩
    · exact buildWordsGo_fields f st et dur rest (wi + 1) w hw

theorem finalizeChunk_fields (f : FontM) (leftover txt : Str) :
    ∀ (protos : List ProtoSyl) (fx : Str),
    ∀ s ∈ (finalizeChunk f leftover txt fx protos).1,
    posUnsetS s ∧ measuredS s
  | [], fx, s, hs => by simp [finalizeChunk] at hs
  | [p], fx, s, hs => by
    simp only [finalizeChunk, List.mem_singleton] at hs
    subst hs
    exact ⟨⟨rfl, rfl, rfl, rfl, rfl, rfl, rfl, rfl⟩,
      ⟨rfl, rfl, rfl, rfl, rfl, rfl⟩⟩
  | p :: q :: rest, fx, s, hs => by
    rw [show (finalizeChunk f leftover txt fx (p :: q :: rest)).1
        = (hiddenSyl f fx p).1
          :: (finalizeChunk f leftover txt (hiddenSyl f fx p).2 (q :: rest)).1
        from rfl] at hs
    rcases List.mem_cons.mp hs with rfl | hs
    · exact ⟨⟨rfl, rfl, rfl, rfl, rfl, rfl, rfl, rfl⟩,
        ⟨rfl, rfl, rfl, rfl, rfl, rfl⟩⟩
    · exact finalizeChunk_fields f leftover txt (q :: rest)
        (hiddenSyl f fx p).2 s hs

theorem buildSylsGo_fields (f : FontM) :
    ∀ (chunks : List TextChunk) (si : Nat) (last : Int) (fx : Str)
      (acc : List SylE),
    (∀ s ∈ acc, posUnsetS s ∧ measuredS s) →
    ∀ s ∈ buildSylsGo f chunks si last fx acc, posUnsetS s ∧ measuredS s
  | [], si, last, fx, acc, hacc, s, hs => hacc s hs
  | tc :: rest, si, last, fx, acc, hacc, s, hs => by
    rw [show buildSylsGo f (tc :: rest) si last fx acc
        = if (kMatch tc.tags).isSome then
            buildSylsGo f rest (chunkSyls f tc si last fx).2.1
              (chunkSyls f tc si last fx).2.2.1
              (chunkSyls f tc si last fx).2.2.2
              (acc ++ (chunkSyls f tc si last fx).1)
          else [] from rfl] at hs
    split at hs
    · refine buildSylsGo_fields f rest _ _ _ _ ?_ s hs
      intro r hr
      rcases List.mem_append.mp hr with hr | hr
      · exact hacc r hr
      · exact finalizeChunk_fields f _ tc.text _ _ r hr
    · simp at hs

theorem buildSyls_fields (f : FontM) (chunks : List TextChunk) :
    ∀ s ∈ buildSyls f chunks, posUnsetS s ∧ measuredS s :=
  buildSylsGo_fields f chunks 0 0 [] [] (by intro s hs; simp at hs)

theorem charsOfSylGo_fields (f : FontM) (s : SylE) :
    ∀ (t : Str) (gi ci : Nat), ∀ c ∈ charsOfSylGo f s gi ci t,
    posUnsetC c ∧ measuredC c
      ∧ c.start_time = s.start_time ∧ c.end_time = s.end_time
  | [], gi, ci, c, hc => by simp [charsOfSylGo] at hc
  | ch :: rest, gi, ci, c, hc => by
    rcases List.mem_cons.mp hc with rfl | hc
    · exact ⟨⟨rfl, rfl, rfl, rfl, rfl, rfl, rfl, rfl⟩,
        ⟨rfl, rfl, rfl, rfl, rfl, rfl⟩, rfl, rfl⟩
    · exact charsOfSylGo_fields f s rest (gi + 1) (ci + 1) c hc

theorem buildCharsS_fields (f : FontM) :
    ∀ (syls : List SylE) (gi : Nat), ∀ c ∈ buildCharsS f gi syls,
    posUnsetC c ∧ measuredC c
  | [], gi, c, hc => by simp [buildCharsS] at hc
  | s :: rest, gi, c, hc => by
    rw [show buildCharsS f gi (s :: rest)
        = charsOfSylGo f s gi 0 (padText s.prespace s.text s.postspace)
          ++ buildCharsS f
            (gi + (charsOfSylGo f s gi 0
              (padText s.prespace s.text s.postspace)).length) rest
        from rfl] at hc
    rcases List.mem_append.mp hc with hc | hc
    · exact ⟨(charsOfSylGo_fields f s _ gi 0 c hc).1,
        (charsOfSylGo_fields f s _ gi 0 c hc).2.1⟩
    · exact buildCharsS_fields f rest _ c hc

theorem charsOfWordGo_fields (f : FontM) (w : WordE) :
    ∀ (t : Str) (gi : Nat), ∀ c ∈ charsOfWordGo f w gi t,
    posUnsetC c ∧ measuredC c
  | [], gi, c, hc => by simp [charsOfWordGo] at hc
  | ch :: rest, gi, c, hc => by
    rcases List.mem_cons.mp hc with rfl | hc
    · exact ⟨⟨rfl, rfl, rfl, rfl, rfl, rfl, rfl, rfl⟩,
        ⟨rfl, rfl, rfl, rfl, rfl, rfl⟩⟩
    · exact charsOfWordGo_fields f w rest (gi + 1) c hc

theorem buildCharsW_fields (f : FontM) :
    ∀ (ws : List WordE) (gi : Nat), ∀ c ∈ buildCharsW f gi ws,
    posUnsetC c ∧ measuredC c
  | [], gi, c, hc => by simp [buildCharsW] at hc
  | w :: rest, gi, c, hc => by
    rw [show buildCharsW f gi (w :: rest)
        = charsOfWordGo f w gi (padText w.prespace w.text w.postspace)
          ++ buildCharsW f
            (gi + (charsOfWordGo f w gi
              (padText w.prespace w.text w.postspace)).length) rest
        from rfl] at hc
    rcases List.mem_append.mp hc with hc | hc
    · exact charsOfWordGo_fields f w _ gi c hc
    · exact buildCharsW_fields f rest _ c hc

/-- Counterexample for C8: with play-resolution width 0 the width and
height of the line and of every word are populated all the same (and
likewise the measurement fields of syllables and characters) — only the
positional fields stay unset. -/
theorem C8_cex :
    ((processLine testFont true 0 720 (testStyle 2)
        ⟨0, 1000, 0, 0, 0, "Hi there".toList⟩).width).isSome = true
    ∧ ((processLine testFont true 0 720 (testStyle 2)
        ⟨0, 1000, 0, 0, 0, "Hi there".toList⟩).height).isSome = true
    ∧ (∀ w ∈ (processLine testFont true 0 720 (testStyle 2)
        ⟨0, 1000, 0, 0, 0, "Hi there".toList⟩).words,
        w.width.isSome ∧ w.height.isSome) := by
  refine ⟨by decide, by decide, by decide⟩

/-- C8 (amended): when either play-resolution dimension is nonpositive,
the eight positional attributes of the line stay unset and so do those of
every word, syllable and character, while the measurement attributes
(width, height, ascent, descent, leadings) are populated regardless, and
the timing/text fields and the word/syllable segmentations are computed
normally. -/
theorem C8_geometry_guard (f : FontM) (vk : Bool) (resx resy : Int)
    (st : StyleR) (ln : PLineIn) (h : ¬(resx > 0 ∧ resy > 0)) :
    (processLine f vk resx resy st ln).left = none
    ∧ (processLine f vk resx resy st ln).center = none
    ∧ (processLine f vk resx resy st ln).right = none
    ∧ (processLine f vk resx resy st ln).x = none
    ∧ (processLine f vk resx resy st ln).top = none
    ∧ (processLine f vk resx resy st ln).middle = none
    ∧ (processLine f vk resx resy st ln).bottom = none
    ∧ (processLine f vk resx resy st ln).y = none
    ∧ ((processLine f vk resx resy st ln).width).isSome
    ∧ ((processLine f vk resx resy st ln).height).isSome
    ∧ ((processLine f vk resx resy st ln).ascent).isSome
    ∧ ((processLine f vk resx resy st ln).descent).isSome
    ∧ ((processLine f vk resx resy st ln).internal_leading).isSome
    ∧ ((processLine f vk resx resy st ln).external_leading).isSome
    ∧ (processLine f vk resx resy st ln).duration
        = ln.end_time - ln.start_time
    ∧ (processLine f vk resx resy st ln).text = stripTags ln.raw_text
    ∧ (processLine f vk resx resy st ln).words
        = buildWords f ln.start_time ln.end_time
            (ln.end_time - ln.start_time) (stripTags ln.raw_text)
    ∧ (processLine f vk resx resy st ln).syls
        = buildSyls f (buildChunks ln.raw_text)
    ∧ (∀ w ∈ (processLine f vk resx resy st ln).words,
        posUnsetW w ∧ measuredW w ∧ w.start_time = ln.start_time
          ∧ w.end_time = ln.end_time
          ∧ w.duration = ln.end_time - ln.start_time)
    ∧ (∀ s ∈ (processLine f vk resx resy st ln).syls,
        posUnsetS s ∧ measuredS s)
    ∧ (∀ c ∈ (processLine f vk resx resy st ln).chars,
        posUnsetC c ∧ measuredC c) := by
  have hL : processLine f vk resx resy st ln
      = { duration := ln.end_time - ln.start_time
          text := stripTags ln.raw_text
          width := some (f.extents (stripTags ln.raw_text)).1
          height := some (f.extents (stripTags ln.raw_text)).2
          ascent := some f.metrics.1
          descent := some f.metrics.2.1
          internal_leading := some f.metrics.2.2.1
          external_leading := some f.metrics.2.2.2
          words := buildWords f ln.start_time ln.end_time
            (ln.end_time - ln.start_time) (stripTags ln.raw_text)
          syls := buildSyls f (buildChunks ln.raw_text)
          chars :=
            if buildSyls f (buildChunks ln.raw_text) ≠ [] then
              buildCharsS f 0 (buildSyls f (buildChunks ln.raw_text))
            else
              buildCharsW f 0 (buildWords f ln.start_time ln.end_time
                (ln.end_time - ln.start_time) (stripTags ln.raw_text)) } := by
    simp only [processLine]
    rw [if_neg h]
    rfl
  rw [hL]
  refine ⟨rfl, rfl, rfl, rfl, rfl, rfl, rfl, rfl, rfl, rfl, rfl, rfl, rfl,
    rfl, rfl, rfl, rfl, rfl, ?_, ?_, ?_⟩
  · intro w hw
    exact buildWordsGo_fields f ln.start_time ln.end_time
      (ln.end_time - ln.start_time)
      (findWords (stripTags ln.raw_text)) 0 w hw
  · intro s hs
    exact buildSyls_fields f (buildChunks ln.raw_text) s hs
  · intro c hc
    simp only at hc
    split at hc
    · exact buildCharsS_fields f _ 0 c hc
    · exact buildCharsW_fields f _ 0 c hc

/-- Witness for C8 (amended) at play-resolution width 0: the hypothesis is
discharged concretely and the line's left coordinate is unset. -/
theorem C8_geometry_guard_witness :
    ¬((0 : Int) > 0 ∧ (720 : Int) > 0)
    ∧ (processLine testFont true 0 720 (testStyle 2)
        ⟨0, 1000, 0, 0, 0, "Hi there".toList⟩).left = none :=
  ⟨by decide,
   (C8_geometry_guard testFont true 0 720 (testStyle 2)
     ⟨0, 1000, 0, 0, 0, "Hi there".toList⟩ (by decide)).1⟩

/-- The non-positional content of a syllable: indices, timing, tags,
inline effect and text split. -/
def sylCore (s : SylE) :
    Nat × Nat × Int × Int × Int × Str × Str × Nat × Str × Nat :=
  (s.i, s.word_i, s.start_time, s.end_time, s.duration, s.tags,
   s.inline_fx, s.prespace, s.text, s.postspace)

theorem sylLayoutH_core (a : Int) (sw sp : ℚ) (lp : PosR) :
    ∀ (cx : ℚ) (ss : List SylE),
    (sylLayoutH a sw sp lp cx ss).map sylCore = ss.map sylCore
  | _, [] => rfl
  | cx, s :: ss => by
    show sylCore _ :: _ = sylCore s :: _
    rw [sylLayoutH_core a sw sp lp _ ss]
    rfl

theorem sylLayoutV_core (a : Int) (lp2 : PosR) (mw : ℚ) :
    ∀ (cy : ℚ) (ss : List SylE),
    (sylLayoutV a lp2 mw cy ss).map sylCore = ss.map sylCore
  | _, [] => rfl
  | cy, s :: ss => by
    show sylCore _ :: _ = sylCore s :: _
    rw [sylLayoutV_core a lp2 mw _ ss]
    rfl

theorem sylPass_core (vk : Bool) (a resy : Int) (sw sp : ℚ) (lp : PosR)
    (lw lh : ℚ) (syls0 : List SylE) :
    (sylPass vk a resy sw sp lp lw lh syls0).2.2.2.map sylCore
      = syls0.map sylCore := by
  rw [show sylPass vk a resy sw sp lp lw lh syls0
      = if syls0 = [] then (lw, lh, lp, syls0)
        else if a > 6 ∨ a < 4 ∨ vk = false then
          (lw, lh, lp, sylLayoutH a sw sp lp lp.left syls0)
        else
          (maxW (fun s => s.width) syls0, sumH (fun s => s.height) syls0,
           sylKanjiLine a resy lp (maxW (fun s => s.width) syls0)
             (sumH (fun s => s.height) syls0),
           sylLayoutV a
             (sylKanjiLine a resy lp (maxW (fun s => s.width) syls0)
               (sumH (fun s => s.height) syls0))
             (maxW (fun s => s.width) syls0)
             ((resy : ℚ) / 2 - sumH (fun s => s.height) syls0 / 2) syls0)
      from rfl]
  split
  · rfl
  · split
    · exact sylLayoutH_core a sw sp lp lp.left syls0
    · exact sylLayoutV_core a _ _ _ syls0

/-- The syllable list of the extended computation carries the same
non-positional content as the one produced by the syllable loop; the
position passes only fill in geometry. -/
theorem processLine_syls_core (f : FontM) (vk : Bool) (resx resy : Int)
    (st : StyleR) (ln : PLineIn) :
    (processLine f vk resx resy st ln).syls.map sylCore
      = (buildSyls f (buildChunks ln.raw_text)).map sylCore := by
  by_cases hres : resx > 0 ∧ resy > 0
  · have h1 : processLine f vk resx resy st ln
        = processLinePos f vk resx resy st ln := by
      simp only [processLine]
      rw [if_pos hres]
    rw [h1]
    show (sylPass vk st.alignment resy (f.extents [' ']).1 st.spacing
        (mkLinePos resx resy st ln.margin_l ln.margin_r ln.margin_v
          (f.extents (stripTags ln.raw_text)).1
          (f.extents (stripTags ln.raw_text)).2)
        (f.extents (stripTags ln.raw_text)).1
        (f.extents (stripTags ln.raw_text)).2
        (buildSyls f (buildChunks ln.raw_text))).2.2.2.map sylCore = _
    exact sylPass_core vk st.alignment resy _ _ _ _ _ _
  · have h1 : processLine f vk resx resy st ln = processLineNeg f ln := by
      simp only [processLine]
      rw [if_neg hres]
    rw [h1]
    rfl

theorem processLine_syls_length (f : FontM) (vk : Bool) (resx resy : Int)
    (st : StyleR) (ln : PLineIn) :
    (processLine f vk resx resy st ln).syls.length
      = (buildSyls f (buildChunks ln.raw_text)).length := by
  have := congrArg List.length (processLine_syls_core f vk resx resy st ln)
  rw [List.length_map, List.length_map] at this
  exact this

theorem processLine_syls_nil (f : FontM) (vk : Bool) (resx resy : Int)
    (st : StyleR) (ln : PLineIn)
    (h : buildSyls f (buildChunks ln.raw_text) = []) :
    (processLine f vk resx resy st ln).syls = [] := by
  have := processLine_syls_length f vk resx resy st ln
  rw [h] at this
  exact List.length_eq_zero.mp this

theorem buildSylsGo_clear (f : FontM) :
    ∀ (chunks : List TextChunk) (si : Nat) (last : Int) (fx : Str)
      (acc : List SylE),
    (∃ tc ∈ chunks, kMatch tc.tags = none) →
    buildSylsGo f chunks si last fx acc = []
  | [], si, last, fx, acc, h => by simp at h
  | tc :: rest, si, last, fx, acc, h => by
    rw [show buildSylsGo f (tc :: rest) si last fx acc
        = if (kMatch tc.tags).isSome then
            buildSylsGo f rest (chunkSyls f tc si last fx).2.1
              (chunkSyls f tc si last fx).2.2.1
              (chunkSyls f tc si last fx).2.2.2
              (acc ++ (chunkSyls f tc si last fx).1)
          else [] from rfl]
    by_cases hk : (kMatch tc.tags).isSome
    · rw [if_pos hk]
      obtain ⟨tc2, htc2, hfail⟩ := h
      rcases List.mem_cons.mp htc2 with rfl | htc2
      · rw [hfail] at hk
        exact absurd hk (by simp)
      · exact buildSylsGo_clear f rest _ _ _ _ ⟨tc2, htc2, hfail⟩
    · rw [if_neg hk]

theorem peelF_length : ∀ (n : Nat) (wi si : Nat) (last : Int) (t : Str),
    (peelF n wi si last t).1.length = kCountF n t
  | 0, _, _, _, _ => rfl
  | n + 1, wi, si, last, t => by
    rw [show (peelF (n + 1) wi si last t).1
        = (match kMatch t with
           | none => ([], t, si, last)
           | some (pre, d, post) =>
             ((⟨si, wi, last, last + (d : Int) * 10, (d : Int) * 10, pre⟩ :
                 ProtoSyl)
               :: (peelF n wi (si + 1) (last + (d : Int) * 10) post).1,
              (peelF n wi (si + 1) (last + (d : Int) * 10) post).2)).1
        from rfl,
      show kCountF (n + 1) t
        = (match kMatch t with
           | none => 0
           | some (_, _, post) => 1 + kCountF n post) from rfl]
    cases hk : kMatch t with
    | none => rfl
    | some tr =>
      obtain ⟨pre, d, post⟩ := tr
      show (peelF n wi (si + 1) (last + (d : Int) * 10) post).1.length + 1
          = 1 + kCountF n post
      rw [peelF_length n wi (si + 1) (last + (d : Int) * 10) post]
      omega

theorem finalizeChunk_length (f : FontM) (leftover txt : Str) :
    ∀ (protos : List ProtoSyl) (fx : Str),
    (finalizeChunk f leftover txt fx protos).1.length = protos.length
  | [], fx => rfl
  | [p], fx => rfl
  | p :: q :: rest, fx => by
    rw [show (finalizeChunk f leftover txt fx (p :: q :: rest)).1
        = (hiddenSyl f fx p).1
          :: (finalizeChunk f leftover txt (hiddenSyl f fx p).2 (q :: rest)).1
        from rfl]
    show (finalizeChunk f leftover txt (hiddenSyl f fx p).2
        (q :: rest)).1.length + 1 = (q :: rest).length + 1
    rw [finalizeChunk_length f leftover txt (q :: rest) (hiddenSyl f fx p).2]

theorem chunkSyls_length (f : FontM) (tc : TextChunk) (si : Nat)
    (last : Int) (fx : Str) :
    (chunkSyls f tc si last fx).1.length = kCount tc.tags := by
  show (finalizeChunk f _ tc.text fx
      (peelF (tc.tags.length + 1) (tc.word_i.getD 0) si last tc.tags).1).1.length
    = kCount tc.tags
  rw [finalizeChunk_length, peelF_length]
  rfl

theorem buildSylsGo_length (f : FontM) :
    ∀ (chunks : List TextChunk) (si : Nat) (last : Int) (fx : Str)
      (acc : List SylE),
    (∀ tc ∈ chunks, (kMatch tc.tags).isSome) →
    (buildSylsGo f chunks si last fx acc).length
      = acc.length + (chunks.map (fun tc => kCount tc.tags)).sum
  | [], si, last, fx, acc, h => by simp [buildSylsGo]
  | tc :: rest, si, last, fx, acc, h => by
    rw [show buildSylsGo f (tc :: rest) si last fx acc
        = if (kMatch tc.tags).isSome then
            buildSylsGo f rest (chunkSyls f tc si last fx).2.1
              (chunkSyls f tc si last fx).2.2.1
              (chunkSyls f tc si last fx).2.2.2
              (acc ++ (chunkSyls f tc si last fx).1)
          else [] from rfl]
    rw [if_pos (h tc (by simp))]
    rw [buildSylsGo_length f rest _ _ _ _
      (fun tc2 htc2 => h tc2 (List.mem_cons_of_mem tc htc2))]
    rw [List.length_append, chunkSyls_length]
    simp only [List.map_cons, List.sum_cons]
    omega

/-- C1: karaoke syllables are all-or-nothing per line — if any tag chunk
of the line has no karaoke duration tag, the line's syllable list is
empty; if every chunk has one, the syllable list is complete, with exactly
one syllable per karaoke duration tag summed over all chunks, never a
truncated prefix. -/
theorem C1_syls_all_or_nothing (f : FontM) (vk : Bool) (resx resy : Int)
    (st : StyleR) (ln : PLineIn) :
    ((∃ tc ∈ buildChunks ln.raw_text, kMatch tc.tags = none) →
      (processLine f vk resx resy st ln).syls = [])
    ∧ ((∀ tc ∈ buildChunks ln.raw_text, (kMatch tc.tags).isSome) →
      (processLine f vk resx resy st ln).syls.length
        = ((buildChunks ln.raw_text).map (fun tc => kCount tc.tags)).sum) := by
  constructor
  · intro h
    exact processLine_syls_nil f vk resx resy st ln
      (buildSylsGo_clear f (buildChunks ln.raw_text) 0 0 [] [] h)
  · intro h
    rw [processLine_syls_length]
    show (buildSylsGo f (buildChunks ln.raw_text) 0 0 [] []).length = _
    rw [buildSylsGo_length f (buildChunks ln.raw_text) 0 0 [] [] h]
    simp

/-- Witness for C1 at concrete lines: a line with a tagless chunk gets no
syllables, and the `{\k50}Hel{\k30}lo {\k40}world` line gets exactly
one syllable per karaoke tag (three). -/
theorem C1_syls_all_or_nothing_witness :
    (∃ tc ∈ buildChunks ("Hi there".toList), kMatch tc.tags = none)
    ∧ (processLine testFont true 1280 720 (testStyle 2)
        ⟨0, 1000, 0, 0, 0, "Hi there".toList⟩).syls = []
    ∧ (∀ tc ∈ buildChunks
          (("\x7b\\k50\x7dHel\x7b\\k30\x7dlo \x7b\\k40\x7dworld").toList),
        (kMatch tc.tags).isSome)
    ∧ (processLine testFont true 1280 720 (testStyle 2)
        ⟨0, 1000, 0, 0, 0,
          ("\x7b\\k50\x7dHel\x7b\\k30\x7dlo \x7b\\k40\x7dworld").toList⟩).syls.length
      = ((buildChunks
          (("\x7b\\k50\x7dHel\x7b\\k30\x7dlo \x7b\\k40\x7dworld").toList)).map
          (fun tc => kCount tc.tags)).sum :=
  ⟨by decide,
   (C1_syls_all_or_nothing testFont true 1280 720 (testStyle 2)
     ⟨0, 1000, 0, 0, 0, "Hi there".toList⟩).1 (by decide),
   by decide,
   (C1_syls_all_or_nothing testFont true 1280 720 (testStyle 2)
     ⟨0, 1000, 0, 0, 0,
       ("\x7b\\k50\x7dHel\x7b\\k30\x7dlo \x7b\\k40\x7dworld").toList⟩).2
     (by decide)⟩

/-- A running-clock chain over (start, end, duration) triples: the first
start equals the clock, each end is its start plus its duration, and each
following start is the previous end. -/
def timChain : Int → List (Int × Int × Int) → Prop
  | _, [] => True
  | t, (st, et, du) :: rest => st = t ∧ et = st + du ∧ timChain et rest

/-- The clock after a chain of triples. -/
def timEnd : Int → List (Int × Int × Int) → Int
  | t, [] => t
  | _, (_, et, _) :: rest => timEnd et rest

/-- The timing triple of a syllable. -/
def sylTim (s : SylE) : Int × Int × Int :=
  (s.start_time, s.end_time, s.duration)

/-- The timing triple of a provisional syllable. -/
def protoTim (p : ProtoSyl) : Int × Int × Int :=
  (p.start_time, p.end_time, p.duration)

theorem timChain_append (l1 : List (Int × Int × Int)) :
    ∀ (t : Int) (l2 : List (Int × Int × Int)),
    timChain t l1 → timChain (timEnd t l1) l2 → timChain t (l1 ++ l2) := by
  induction l1 with
  | nil => intro t l2 _ h2; exact h2
  | cons x rest ih =>
    intro t l2 h1 h2
    obtain ⟨st, et, du⟩ := x
    obtain ⟨ha, hb, hc⟩ := h1
    exact ⟨ha, hb, ih et l2 hc h2⟩

theorem timEnd_append (l1 : List (Int × Int × Int)) :
    ∀ (t : Int) (l2 : List (Int × Int × Int)),
    timEnd t (l1 ++ l2) = timEnd (timEnd t l1) l2 := by
  induction l1 with
  | nil => intro t l2; rfl
  | cons x rest ih =>
    intro t l2
    obtain ⟨st, et, du⟩ := x
    exact ih et l2

theorem peelF_tim : ∀ (n : Nat) (wi si : Nat) (last : Int) (t : Str),
    timChain last ((peelF n wi si last t).1.map protoTim)
    ∧ (peelF n wi si last t).2.2.2
        = timEnd last ((peelF n wi si last t).1.map protoTim)
    ∧ ((peelF n wi si last t).1.map (fun p => p.duration)).sum
        = 10 * (kSumF n t : Int)
  | 0, wi, si, last, t => ⟨trivial, rfl, rfl⟩
  | n + 1, wi, si, last, t => by
    rw [show peelF (n + 1) wi si last t
        = (match kMatch t with
           | none => ([], t, si, last)
           | some (pre, d, post) =>
             ((⟨si, wi, last, last + (d : Int) * 10, (d : Int) * 10, pre⟩ :
                 ProtoSyl)
               :: (peelF n wi (si + 1) (last + (d : Int) * 10) post).1,
              (peelF n wi (si + 1) (last + (d : Int) * 10) post).2))
        from rfl,
      show kSumF (n + 1) t
        = (match kMatch t with
           | none => 0
           | some (_, d, post) => d + kSumF n post) from rfl]
    cases hk : kMatch t with
    | none => exact ⟨trivial, rfl, rfl⟩
    | some tr =>
      obtain ⟨pre, d, post⟩ := tr
      have ih := peelF_tim n wi (si + 1) (last + (d : Int) * 10) post
      refine ⟨⟨rfl, rfl, ih.1⟩, ih.2.1, ?_⟩
      show (d : Int) * 10
          + ((peelF n wi (si + 1) (last + (d : Int) * 10) post).1.map
              (fun p => p.duration)).sum
        = 10 * ((d + kSumF n post : Nat) : Int)
      rw [ih.2.2]
      push_cast
      ring

theorem finalizeChunk_tim (f : FontM) (leftover txt : Str) :
    ∀ (protos : List ProtoSyl) (fx : Str),
    (finalizeChunk f leftover txt fx protos).1.map sylTim
      = protos.map protoTim
  | [], fx => rfl
  | [p], fx => rfl
  | p :: q :: rest, fx => by
    rw [show (finalizeChunk f leftover txt fx (p :: q :: rest)).1
        = (hiddenSyl f fx p).1
          :: (finalizeChunk f leftover txt (hiddenSyl f fx p).2 (q :: rest)).1
        from rfl]
    show sylTim _ :: _ = protoTim p :: _
    rw [finalizeChunk_tim f leftover txt (q :: rest) (hiddenSyl f fx p).2]
    rfl

theorem chunkSyls_tim (f : FontM) (tc : TextChunk) (si : Nat) (last : Int)
    (fx : Str) :
    timChain last ((chunkSyls f tc si last fx).1.map sylTim)
    ∧ (chunkSyls f tc si last fx).2.2.1
        = timEnd last ((chunkSyls f tc si last fx).1.map sylTim)
    ∧ ((chunkSyls f tc si last fx).1.map (fun s => s.duration)).sum
        = 10 * (kSum tc.tags : Int) := by
  have hfin : (chunkSyls f tc si last fx).1.map sylTim
      = (peel (tc.word_i.getD 0) si last tc.tags).1.map protoTim :=
    finalizeChunk_tim f _ tc.text _ _
  have hp := peelF_tim (tc.tags.length + 1) (tc.word_i.getD 0) si last
    tc.tags
  refine ⟨?_, ?_, ?_⟩
  · rw [hfin]
    exact hp.1
  · rw [hfin]
    exact hp.2.1
  · have hdur : (chunkSyls f tc si last fx).1.map (fun s => s.duration)
        = (peel (tc.word_i.getD 0) si last tc.tags).1.map
            (fun p => p.duration) := by
      have := congrArg (List.map (fun x : Int × Int × Int => x.2.2)) hfin
      rw [List.map_map, List.map_map] at this
      exact this
    rw [hdur]
    exact hp.2.2

theorem buildSylsGo_tim (f : FontM) :
    ∀ (chunks : List TextChunk) (si : Nat) (last : Int) (fx : Str)
      (acc : List SylE) (c0 : Int),
    (∀ tc ∈ chunks, (kMatch tc.tags).isSome) →
    timChain c0 (acc.map sylTim) →
    last = timEnd c0 (acc.map sylTim) →
    timChain c0 ((buildSylsGo f chunks si last fx acc).map sylTim)
    ∧ ((buildSylsGo f chunks si last fx acc).map (fun s => s.duration)).sum
        = (acc.map (fun s => s.duration)).sum
          + 10 * ((chunks.map (fun tc => kSum tc.tags)).sum : Int)
  | [], si, last, fx, acc, c0, h, hacc, hlast => by
    refine ⟨hacc, ?_⟩
    show (acc.map (fun s => s.duration)).sum = _
    simp
  | tc :: rest, si, last, fx, acc, c0, h, hacc, hlast => by
    rw [show buildSylsGo f (tc :: rest) si last fx acc
        = if (kMatch tc.tags).isSome then
            buildSylsGo f rest (chunkSyls f tc si last fx).2.1
              (chunkSyls f tc si last fx).2.2.1
              (chunkSyls f tc si last fx).2.2.2
              (acc ++ (chunkSyls f tc si last fx).1)
          else [] from rfl]
    rw [if_pos (h tc (by simp))]
    have hgrp := chunkSyls_tim f tc si last fx
    have hchain2 : timChain c0 ((acc ++ (chunkSyls f tc si last fx).1).map
        sylTim) := by
      rw [List.map_append]
      refine timChain_append _ c0 _ hacc ?_
      rw [← hlast]
      exact hgrp.1
    have hend2 : (chunkSyls f tc si last fx).2.2.1
        = timEnd c0 ((acc ++ (chunkSyls f tc si last fx).1).map sylTim) := by
      rw [List.map_append, timEnd_append, ← hlast]
      exact hgrp.2.1
    have ih := buildSylsGo_tim f rest (chunkSyls f tc si last fx).2.1
      (chunkSyls f tc si last fx).2.2.1 (chunkSyls f tc si last fx).2.2.2
      (acc ++ (chunkSyls f tc si last fx).1) c0
      (fun tc2 htc2 => h tc2 (List.mem_cons_of_mem tc htc2))
      hchain2 hend2
    refine ⟨ih.1, ?_⟩
    rw [ih.2]
    rw [List.map_append, List.sum_append, hgrp.2.2]
    simp only [List.map_cons, List.sum_cons]
    push_cast
    ring

/-- C2: for a line every chunk of which has a karaoke duration tag, the
syllables run on a clock starting at 0: the first syllable starts at 0,
each syllable's end is its start plus its duration (the tag value × 10
ms), each later syllable starts at the previous end, and the total of the
syllable durations is 10 × the sum of the karaoke tag values — all
independent of the line's own start/end times. -/
theorem C2_karaoke_clock (f : FontM) (vk : Bool) (resx resy : Int)
    (st : StyleR) (ln : PLineIn)
    (h : ∀ tc ∈ buildChunks ln.raw_text, (kMatch tc.tags).isSome) :
    timChain 0 ((processLine f vk resx resy st ln).syls.map sylTim)
    ∧ ((processLine f vk resx resy st ln).syls.map
        (fun s => s.duration)).sum
      = 10 * (((buildChunks ln.raw_text).map
          (fun tc => kSum tc.tags)).sum : Int)
    ∧ (∀ s : SylE, (processLine f vk resx resy st ln).syls.head? = some s →
        s.start_time = 0) := by
  have hcore := processLine_syls_core f vk resx resy st ln
  have htim : (processLine f vk resx resy st ln).syls.map sylTim
      = (buildSyls f (buildChunks ln.raw_text)).map sylTim := by
    have h2 := congrArg (List.map
      (fun c : Nat × Nat × Int × Int × Int × Str × Str × Nat × Str × Nat =>
        (c.2.2.1, c.2.2.2.1, c.2.2.2.2.1))) hcore
    rw [List.map_map, List.map_map] at h2
    exact h2
  have hdur : (processLine f vk resx resy st ln).syls.map
        (fun s => s.duration)
      = (buildSyls f (buildChunks ln.raw_text)).map (fun s => s.duration) := by
    have h2 := congrArg (List.map
      (fun c : Nat × Nat × Int × Int × Int × Str × Str × Nat × Str × Nat =>
        c.2.2.2.2.1)) hcore
    rw [List.map_map, List.map_map] at h2
    exact h2
  have hmain := buildSylsGo_tim f (buildChunks ln.raw_text) 0 0 [] [] 0 h
    trivial rfl
  have hchain : timChain 0
      ((processLine f vk resx resy st ln).syls.map sylTim) := by
    rw [htim]
    exact hmain.1
  refine ⟨hchain, ?_, ?_⟩
  · rw [hdur]
    have h2 := hmain.2
    simp only [List.map_nil, List.sum_nil, Int.zero_add] at h2
    rw [show buildSyls f (buildChunks ln.raw_text)
        = buildSylsGo f (buildChunks ln.raw_text) 0 0 [] [] from rfl]
    omega
  · intro s hhead
    cases hsy : (processLine f vk resx resy st ln).syls with
    | nil => rw [hsy] at hhead; exact Option.noConfusion hhead
    | cons a rest =>
      rw [hsy] at hhead hchain
      have h1 : (some a : Option SylE) = some s := hhead
      rw [Option.some_inj] at h1
      subst h1
      exact hchain.1

/-- Witness for C2 at the `{\k50}Hel{\k30}lo {\k40}world` line (line times
100–900 ms, unrelated to the karaoke total): the hypothesis is discharged
concretely and the duration-sum conjunct is extracted. -/
theorem C2_karaoke_clock_witness :
    (∀ tc ∈ buildChunks
        (("\x7b\\k50\x7dHel\x7b\\k30\x7dlo \x7b\\k40\x7dworld").toList),
      (kMatch tc.tags).isSome)
    ∧ ((processLine testFont true 1280 720 (testStyle 2)
        ⟨100, 900, 0, 0, 0,
          ("\x7b\\k50\x7dHel\x7b\\k30\x7dlo \x7b\\k40\x7dworld").toList⟩).syls.map
        (fun s => s.duration)).sum
      = 10 * (((buildChunks
          (("\x7b\\k50\x7dHel\x7b\\k30\x7dlo \x7b\\k40\x7dworld").toList)).map
          (fun tc => kSum tc.tags)).sum : Int) :=
  ⟨by decide,
   (C2_karaoke_clock testFont true 1280 720 (testStyle 2)
     ⟨100, 900, 0, 0, 0,
       ("\x7b\\k50\x7dHel\x7b\\k30\x7dlo \x7b\\k40\x7dworld").toList⟩
     (by decide)).2.1⟩

theorem peelF_ne_nil {t : Str} (wi si : Nat) (last : Int)
    (h : (kMatch t).isSome) :
    (peelF (t.length + 1) wi si last t).1 ≠ [] := by
  rw [show peelF (t.length + 1) wi si last t
      = (match kMatch t with
         | none => ([], t, si, last)
         | some (pre, d, post) =>
           ((⟨si, wi, last, last + (d : Int) * 10, (d : Int) * 10, pre⟩ :
               ProtoSyl)
             :: (peelF t.length wi (si + 1) (last + (d : Int) * 10) post).1,
            (peelF t.length wi (si + 1) (last + (d : Int) * 10) post).2))
      from rfl]
  revert h
  cases hk : kMatch t with
  | none => intro h; exact absurd h (by simp)
  | some tr =>
    obtain ⟨pre, d, post⟩ := tr
    intro _
    simp

theorem finalizeChunk_hidden (f : FontM) (leftover txt : Str) :
    ∀ (protos : List ProtoSyl) (fx : Str) (j : Nat) (s : SylE),
    j + 1 < (finalizeChunk f leftover txt fx protos).1.length →
    (finalizeChunk f leftover txt fx protos).1.get? j = some s →
    s.text = [] ∧ s.prespace = 0 ∧ s.postspace = 0
  | [], fx, j, s, hj, hs => by simp [finalizeChunk] at hj
  | [p], fx, j, s, hj, hs => by
    rw [show (finalizeChunk f leftover txt fx [p]).1
        = [(lastSyl f fx leftover txt p).1] from rfl] at hj
    simp at hj
  | p :: q :: rest, fx, j, s, hj, hs => by
    rw [show (finalizeChunk f leftover txt fx (p :: q :: rest)).1
        = (hiddenSyl f fx p).1
          :: (finalizeChunk f leftover txt (hiddenSyl f fx p).2 (q :: rest)).1
        from rfl] at hj hs
    match j, hj, hs with
    | 0, hj, hs =>
      have h1 : (some (hiddenSyl f fx p).1 : Option SylE) = some s := hs
      rw [Option.some_inj] at h1
      subst h1
      exact ⟨rfl, rfl, rfl⟩
    | j + 1, hj, hs =>
      exact finalizeChunk_hidden f leftover txt (q :: rest)
        (hiddenSyl f fx p).2 j s
        (by simp only [List.length_cons] at hj ⊢; omega) hs

theorem finalizeChunk_last (f : FontM) (leftover txt : Str) :
    ∀ (protos : List ProtoSyl) (fx : Str) (p : ProtoSyl) (s : SylE),
    protos.getLast? = some p →
    (finalizeChunk f leftover txt fx protos).1.getLast? = some s →
    s.tags = p.tags ++ leftover
    ∧ s.prespace = (splitText txt).1
    ∧ s.text = (splitText txt).2.1
    ∧ s.postspace = (splitText txt).2.2
    ∧ s.start_time = p.start_time ∧ s.end_time = p.end_time
    ∧ s.duration = p.duration
  | [], fx, p, s, hp, hs => by simp at hp
  | [q], fx, p, s, hp, hs => by
    have h1 : (some q : Option ProtoSyl) = some p := hp
    rw [Option.some_inj] at h1
    subst h1
    rw [show (finalizeChunk f leftover txt fx [q]).1
        = [(lastSyl f fx leftover txt q).1] from rfl] at hs
    have h2 : (some (lastSyl f fx leftover txt q).1 : Option SylE)
        = some s := hs
    rw [Option.some_inj] at h2
    subst h2
    exact ⟨rfl, rfl, rfl, rfl, rfl, rfl, rfl⟩
  | q :: q2 :: rest, fx, p, s, hp, hs => by
    rw [show (finalizeChunk f leftover txt fx (q :: q2 :: rest)).1
        = (hiddenSyl f fx q).1
          :: (finalizeChunk f leftover txt (hiddenSyl f fx q).2
              (q2 :: rest)).1 from rfl] at hs
    have hlen : (finalizeChunk f leftover txt (hiddenSyl f fx q).2
        (q2 :: rest)).1.length = (q2 :: rest).length :=
      finalizeChunk_length f leftover txt (q2 :: rest) (hiddenSyl f fx q).2
    revert hs
    cases hout : (finalizeChunk f leftover txt (hiddenSyl f fx q).2
        (q2 :: rest)).1 with
    | nil => rw [hout] at hlen; simp at hlen
    | cons c tl =>
      intro hs
      rw [List.getLast?_cons_cons] at hs
      rw [← hout] at hs
      exact finalizeChunk_last f leftover txt (q2 :: rest)
        (hiddenSyl f fx q).2 p s (by rw [List.getLast?_cons_cons] at hp; exact hp) hs

/-- C3: within a tag chunk that yields n ≥ 1 provisional syllables,
exactly the first n−1 are finalized as hidden syllables — empty text and
zero prespace/postspace — while the last provisional syllable absorbs the
chunk's leftover tag remainder into its tags and receives the chunk's
following text split into (leading-whitespace count, core text,
trailing-whitespace count), a pure-whitespace text being kept verbatim
with zero counts (the `splitText` branches). -/
theorem C3_chunk_finalization (f : FontM) (tc : TextChunk) (si : Nat)
    (last : Int) (fx : Str) (h : (kMatch tc.tags).isSome) :
    (chunkSyls f tc si last fx).1.length
      = (peel (tc.word_i.getD 0) si last tc.tags).1.length
    ∧ (peel (tc.word_i.getD 0) si last tc.tags).1 ≠ []
    ∧ (∀ (j : Nat) (s : SylE),
        j + 1 < (chunkSyls f tc si last fx).1.length →
        (chunkSyls f tc si last fx).1.get? j = some s →
        s.text = [] ∧ s.prespace = 0 ∧ s.postspace = 0)
    ∧ (∀ (p : ProtoSyl) (s : SylE),
        (peel (tc.word_i.getD 0) si last tc.tags).1.getLast? = some p →
        (chunkSyls f tc si last fx).1.getLast? = some s →
        s.tags = p.tags ++ (peel (tc.word_i.getD 0) si last tc.tags).2.1
        ∧ s.prespace = (splitText tc.text).1
        ∧ s.text = (splitText tc.text).2.1
        ∧ s.postspace = (splitText tc.text).2.2
        ∧ s.start_time = p.start_time ∧ s.end_time = p.end_time
        ∧ s.duration = p.duration) := by
  refine ⟨?_, peelF_ne_nil (tc.word_i.getD 0) si last h, ?_, ?_⟩
  · exact Eq.trans
      (finalizeChunk_length f _ tc.text
        (peel (tc.word_i.getD 0) si last tc.tags).1 fx) rfl
  · intro j s hj hs
    exact finalizeChunk_hidden f _ tc.text
      (peel (tc.word_i.getD 0) si last tc.tags).1 fx j s hj hs
  · intro p s hp hs
    exact finalizeChunk_last f _ tc.text
      (peel (tc.word_i.getD 0) si last tc.tags).1 fx p s hp hs

/-- Witness for C3 on the chunk with tags `\k5\fs20\k6zz` and text
` hi `: two provisional syllables arise, and the last one gets the tag
remainder `\fs20` + leftover `zz` and the whitespace-trimmed split of the
text. -/
theorem C3_chunk_finalization_witness :
    ((kMatch ("\\k5\\fs20\\k6zz".toList)).isSome)
    ∧ (∀ (p : ProtoSyl) (s : SylE),
        (peel ((⟨"\\k5\\fs20\\k6zz".toList, " hi ".toList, some 0⟩ :
            TextChunk).word_i.getD 0) 3 7
          (⟨"\\k5\\fs20\\k6zz".toList, " hi ".toList, some 0⟩ :
            TextChunk).tags).1.getLast? = some p →
        (chunkSyls testFont
          (⟨"\\k5\\fs20\\k6zz".toList, " hi ".toList, some 0⟩ : TextChunk)
          3 7 []).1.getLast? = some s →
        s.tags = p.tags ++ (peel ((⟨"\\k5\\fs20\\k6zz".toList,
            " hi ".toList, some 0⟩ : TextChunk).word_i.getD 0) 3 7
          (⟨"\\k5\\fs20\\k6zz".toList, " hi ".toList, some 0⟩ :
            TextChunk).tags).2.1
        ∧ s.prespace = (splitText (⟨"\\k5\\fs20\\k6zz".toList,
            " hi ".toList, some 0⟩ : TextChunk).text).1
        ∧ s.text = (splitText (⟨"\\k5\\fs20\\k6zz".toList,
            " hi ".toList, some 0⟩ : TextChunk).text).2.1
        ∧ s.postspace = (splitText (⟨"\\k5\\fs20\\k6zz".toList,
            " hi ".toList, some 0⟩ : TextChunk).text).2.2
        ∧ s.start_time = p.start_time ∧ s.end_time = p.end_time
        ∧ s.duration = p.duration) :=
  ⟨by decide,
   (C3_chunk_finalization testFont
     ⟨"\\k5\\fs20\\k6zz".toList, " hi ".toList, some 0⟩ 3 7 []
     (by decide)).2.2.2⟩

/-- One step of the horizontal character walk (source lines 1075–1096). -/
def charH1 (a : Int) (sp : ℚ) (lp : PosR) (cx : ℚ) (c : CharE) : CharE :=
  let wd := (c.width).getD 0
  let xv : ℚ :=
    if (a - 1) % 3 = 0 then cx
    else if (a - 2) % 3 = 0 then cx + wd / 2
    else cx + wd
  { c with
    left := some cx
    center := some (cx + wd / 2)
    right := some (cx + wd)
    x := some xv
    top := some lp.top
    middle := some lp.middle
    bottom := some lp.bottom
    y := some lp.y }

/-- One step of the vertical character stacking (source lines 1097–1128). -/
def charV1 (a resx : Int) (lp : PosR) (mw cy : ℚ) (c : CharE) : CharE :=
  let wd := (c.width).getD 0
  let hh := (c.height).getD 0
  let xf := (mw - wd) / 2
  let lx : ℚ × ℚ :=
    if a = 4 then (lp.left + xf, lp.left + xf)
    else if a = 5 then ((resx : ℚ) / 2 - wd / 2, (resx : ℚ) / 2 - wd / 2 + wd / 2)
    else (lp.right - wd - xf, lp.right - xf)
  { c with
    left := some lx.1
    center := some (lx.1 + wd / 2)
    right := some (lx.1 + wd)
    x := some lx.2
    top := some cy
    middle := some (cy + hh / 2)
    bottom := some (cy + hh)
    y := some (cy + hh / 2) }

/-- One step of the horizontal word walk (source lines 742–773). -/
def wordH1 (a : Int) (sw sp : ℚ) (lp : PosR) (cx : ℚ) (w : WordE) : WordE :=
  let l := cx + (w.prespace : ℚ) * (sw + sp)
  let wd := (w.width).getD 0
  let xv : ℚ :=
    if (a - 1) % 3 = 0 then l
    else if (a - 2) % 3 = 0 then l + wd / 2
    else l + wd
  { w with
    left := some l
    center := some (l + wd / 2)
    right := some (l + wd)
    x := some xv
    top := some lp.top
    middle := some lp.middle
    bottom := some lp.bottom
    y := some lp.y }

/-- One step of the vertical word stacking (source lines 774–806). -/
def wordV1 (a resx : Int) (lp : PosR) (mw cy : ℚ) (w : WordE) : WordE :=
  let wd := (w.width).getD 0
  let hh := (w.height).getD 0
  let xf := (mw - wd) / 2
  let lx : ℚ × ℚ :=
    if a = 4 then (lp.left + xf, lp.left + xf)
    else if a = 5 then ((resx : ℚ) / 2 - wd / 2, (resx : ℚ) / 2 - wd / 2 + wd / 2)
    else (lp.right - wd - xf, lp.right - xf)
  { w with
    left := some lx.1
    center := some (lx.1 + wd / 2)
    right := some (lx.1 + wd)
    x := some lx.2
    top := some cy
    middle := some (cy + hh / 2)
    bottom := some (cy + hh)
    y := some (cy + hh / 2) }

/-- One step of the horizontal syllable walk (source lines 948–974). -/
def sylH1 (a : Int) (sw sp : ℚ) (lp : PosR) (cx : ℚ) (s : SylE) : SylE :=
  let l := cx + (s.prespace : ℚ) * (sw + sp)
  let wd := (s.width).getD 0
  let xv : ℚ :=
    if (a - 1) % 3 = 0 then l
    else if (a - 2) % 3 = 0 then l + wd / 2
    else l + wd
  { s with
    left := some l
    center := some (l + wd / 2)
    right := some (l + wd)
    x := some xv
    top := some lp.top
    middle := some lp.middle
    bottom := some lp.bottom
    y := some lp.y }

/-- One step of the vertical syllable stacking (source lines 1000–1024). -/
def sylV1 (a : Int) (lp2 : PosR) (mw cy : ℚ) (s : SylE) : SylE :=
  let wd := (s.width).getD 0
  let hh := (s.height).getD 0
  let xf := (mw - wd) / 2
  let lx : ℚ × ℚ :=
    if a = 4 then (lp2.left + xf, lp2.left + xf)
    else if a = 5 then (lp2.center - wd / 2, lp2.center - wd / 2 + wd / 2)
    else (lp2.right - wd - xf, lp2.right - xf)
  { s with
    left := some lx.1
    center := some (lx.1 + wd / 2)
    right := some (lx.1 + wd)
    x := some lx.2
    top := some cy
    middle := some (cy + hh / 2)
    bottom := some (cy + hh)
    y := some (cy + hh / 2) }

theorem charLayoutH_cons (a : Int) (sp : ℚ) (lp : PosR) (cx : ℚ)
    (c : CharE) (cs : List CharE) :
    charLayoutH a sp lp cx (c :: cs)
      = charH1 a sp lp cx c
        :: charLayoutH a sp lp (cx + (c.width).getD 0 + sp) cs := rfl

theorem charLayoutV_cons (a resx : Int) (lp : PosR) (mw cy : ℚ)
    (c : CharE) (cs : List CharE) :
    charLayoutV a resx lp mw cy (c :: cs)
      = charV1 a resx lp mw cy c
        :: charLayoutV a resx lp mw (cy + (c.height).getD 0) cs := rfl

theorem wordLayoutH_cons (a : Int) (sw sp : ℚ) (lp : PosR) (cx : ℚ)
    (w : WordE) (ws : List WordE) :
    wordLayoutH a sw sp lp cx (w :: ws)
      = wordH1 a sw sp lp cx w
        :: wordLayoutH a sw sp lp
          (cx + (w.prespace : ℚ) * (sw + sp) + (w.width).getD 0
            + (w.postspace : ℚ) * (sw + sp) + sp) ws := rfl

theorem wordLayoutV_cons (a resx : Int) (lp : PosR) (mw cy : ℚ)
    (w : WordE) (ws : List WordE) :
    wordLayoutV a resx lp mw cy (w :: ws)
      = wordV1 a resx lp mw cy w
        :: wordLayoutV a resx lp mw (cy + (w.height).getD 0) ws := rfl

theorem sylLayoutH_cons (a : Int) (sw sp : ℚ) (lp : PosR) (cx : ℚ)
    (s : SylE) (ss : List SylE) :
    sylLayoutH a sw sp lp cx (s :: ss)
      = sylH1 a sw sp lp cx s
        :: sylLayoutH a sw sp lp
          (cx + (s.prespace : ℚ) * (sw + sp) + (s.width).getD 0
            + (s.postspace : ℚ) * (sw + sp) + sp) ss := rfl

theorem sylLayoutV_cons (a : Int) (lp2 : PosR) (mw cy : ℚ)
    (s : SylE) (ss : List SylE) :
    sylLayoutV a lp2 mw cy (s :: ss)
      = sylV1 a lp2 mw cy s
        :: sylLayoutV a lp2 mw (cy + (s.height).getD 0) ss := rfl

theorem charV1_top (a resx : Int) (lp : PosR) (mw cy : ℚ) (c : CharE) :
    (charV1 a resx lp mw cy c).top = some cy := rfl

theorem wordV1_top (a resx : Int) (lp : PosR) (mw cy : ℚ) (w : WordE) :
    (wordV1 a resx lp mw cy w).top = some cy := rfl

theorem sylV1_top (a : Int) (lp2 : PosR) (mw cy : ℚ) (s : SylE) :
    (sylV1 a lp2 mw cy s).top = some cy := rfl

theorem sumH_eq_map {α : Type} (g : α → Option ℚ) (l : List α) :
    sumH g l = (l.map g).foldl (fun s o => s + o.getD 0) 0 := by
  show List.foldl (fun s x => s + (g x).getD 0) 0 l = _
  rw [List.foldl_map]

theorem sumH_congr2 {α β : Type} (g : α → Option ℚ) (g2 : β → Option ℚ)
    (l : List α) (l2 : List β) (h : l.map g = l2.map g2) :
    sumH g l = sumH g2 l2 := by
  rw [sumH_eq_map, sumH_eq_map, h]

theorem maxW_eq_map {α : Type} (g : α → Option ℚ) (l : List α) :
    maxW g l = (l.map g).foldl (fun m o => max m (o.getD 0)) 0 := by
  show List.foldl (fun m x => max m ((g x).getD 0)) 0 l = _
  rw [List.foldl_map]

theorem maxW_congr2 {α β : Type} (g : α → Option ℚ) (g2 : β → Option ℚ)
    (l : List α) (l2 : List β) (h : l.map g = l2.map g2) :
    maxW g l = maxW g2 l2 := by
  rw [maxW_eq_map, maxW_eq_map, h]

theorem charLayoutV_map_height (a resx : Int) (lp : PosR) (mw : ℚ) :
    ∀ (cy : ℚ) (cs : List CharE),
    (charLayoutV a resx lp mw cy cs).map (fun x => x.height)
      = cs.map (fun x => x.height)
  | _, [] => rfl
  | cy, c :: cs => by
    rw [charLayoutV_cons]
    simp only [List.map_cons]
    rw [charLayoutV_map_height a resx lp mw _ cs]
    rfl

theorem wordLayoutV_map_height (a resx : Int) (lp : PosR) (mw : ℚ) :
    ∀ (cy : ℚ) (ws : List WordE),
    (wordLayoutV a resx lp mw cy ws).map (fun x => x.height)
      = ws.map (fun x => x.height)
  | _, [] => rfl
  | cy, w :: ws => by
    rw [wordLayoutV_cons]
    simp only [List.map_cons]
    rw [wordLayoutV_map_height a resx lp mw _ ws]
    rfl

theorem sylLayoutV_map_height (a : Int) (lp2 : PosR) (mw : ℚ) :
    ∀ (cy : ℚ) (ss : List SylE),
    (sylLayoutV a lp2 mw cy ss).map (fun x => x.height)
      = ss.map (fun x => x.height)
  | _, [] => rfl
  | cy, s :: ss => by
    rw [sylLayoutV_cons]
    simp only [List.map_cons]
    rw [sylLayoutV_map_height a lp2 mw _ ss]
    rfl

theorem sylLayoutV_map_width (a : Int) (lp2 : PosR) (mw : ℚ) :
    ∀ (cy : ℚ) (ss : List SylE),
    (sylLayoutV a lp2 mw cy ss).map (fun x => x.width)
      = ss.map (fun x => x.width)
  | _, [] => rfl
  | cy, s :: ss => by
    rw [sylLayoutV_cons]
    simp only [List.map_cons]
    rw [sylLayoutV_map_width a lp2 mw _ ss]
    rfl

theorem charLayoutV_get0 (a resx : Int) (lp : PosR) (mw : ℚ) :
    ∀ (cy : ℚ) (cs : List CharE) (c : CharE),
    (charLayoutV a resx lp mw cy cs).get? 0 = some c → c.top = some cy
  | cy, [], c, h => by simp [charLayoutV] at h
  | cy, c0 :: cs, c, h => by
    rw [charLayoutV_cons, List.get?_cons_zero, Option.some.injEq] at h
    rw [← h]
    rfl

theorem wordLayoutV_get0 (a resx : Int) (lp : PosR) (mw : ℚ) :
    ∀ (cy : ℚ) (ws : List WordE) (w : WordE),
    (wordLayoutV a resx lp mw cy ws).get? 0 = some w → w.top = some cy
  | cy, [], w, h => by simp [wordLayoutV] at h
  | cy, w0 :: ws, w, h => by
    rw [wordLayoutV_cons, List.get?_cons_zero, Option.some.injEq] at h
    rw [← h]
    rfl

theorem sylLayoutV_get0 (a : Int) (lp2 : PosR) (mw : ℚ) :
    ∀ (cy : ℚ) (ss : List SylE) (s : SylE),
    (sylLayoutV a lp2 mw cy ss).get? 0 = some s → s.top = some cy
  | cy, [], s, h => by simp [sylLayoutV] at h
  | cy, s0 :: ss, s, h => by
    rw [sylLayoutV_cons, List.get?_cons_zero, Option.some.injEq] at h
    rw [← h]
    rfl

theorem charLayoutV_adj (a resx : Int) (lp : PosR) (mw : ℚ) :
    ∀ (cy : ℚ) (cs : List CharE) (j : Nat) (c c' : CharE),
    (charLayoutV a resx lp mw cy cs).get? j = some c →
    (charLayoutV a resx lp mw cy cs).get? (j + 1) = some c' →
    c'.top = c.bottom
  | cy, [], j, c, c', h, _ => by simp [charLayoutV] at h
  | cy, c0 :: cs, 0, c, c', h, h' => by
    rw [charLayoutV_cons, List.get?_cons_zero, Option.some.injEq] at h
    have h2 : (charLayoutV a resx lp mw (cy + (c0.height).getD 0) cs).get? 0
        = some c' := h'
    rw [charLayoutV_get0 a resx lp mw _ cs c' h2, ← h]
    rfl
  | cy, c0 :: cs, j + 1, c, c', h, h' => by
    have h1 : (charLayoutV a resx lp mw (cy + (c0.height).getD 0) cs).get? j
        = some c := h
    have h2 : (charLayoutV a resx lp mw (cy + (c0.height).getD 0) cs).get? (j + 1)
        = some c' := h'
    exact charLayoutV_adj a resx lp mw _ cs j c c' h1 h2

theorem wordLayoutV_adj (a resx : Int) (lp : PosR) (mw : ℚ) :
    ∀ (cy : ℚ) (ws : List WordE) (j : Nat) (w w' : WordE),
    (wordLayoutV a resx lp mw cy ws).get? j = some w →
    (wordLayoutV a resx lp mw cy ws).get? (j + 1) = some w' →
    w'.top = w.bottom
  | cy, [], j, w, w', h, _ => by simp [wordLayoutV] at h
  | cy, w0 :: ws, 0, w, w', h, h' => by
    rw [wordLayoutV_cons, List.get?_cons_zero, Option.some.injEq] at h
    have h2 : (wordLayoutV a resx lp mw (cy + (w0.height).getD 0) ws).get? 0
        = some w' := h'
    rw [wordLayoutV_get0 a resx lp mw _ ws w' h2, ← h]
    rfl
  | cy, w0 :: ws, j + 1, w, w', h, h' => by
    have h1 : (wordLayoutV a resx lp mw (cy + (w0.height).getD 0) ws).get? j
        = some w := h
    have h2 : (wordLayoutV a resx lp mw (cy + (w0.height).getD 0) ws).get? (j + 1)
        = some w' := h'
    exact wordLayoutV_adj a resx lp mw _ ws j w w' h1 h2

theorem sylLayoutV_adj (a : Int) (lp2 : PosR) (mw : ℚ) :
    ∀ (cy : ℚ) (ss : List SylE) (j : Nat) (s s' : SylE),
    (sylLayoutV a lp2 mw cy ss).get? j = some s →
    (sylLayoutV a lp2 mw cy ss).get? (j + 1) = some s' →
    s'.top = s.bottom
  | cy, [], j, s, s', h, _ => by simp [sylLayoutV] at h
  | cy, s0 :: ss, 0, s, s', h, h' => by
    rw [sylLayoutV_cons, List.get?_cons_zero, Option.some.injEq] at h
    have h2 : (sylLayoutV a lp2 mw (cy + (s0.height).getD 0) ss).get? 0
        = some s' := h'
    rw [sylLayoutV_get0 a lp2 mw _ ss s' h2, ← h]
    rfl
  | cy, s0 :: ss, j + 1, s, s', h, h' => by
    have h1 : (sylLayoutV a lp2 mw (cy + (s0.height).getD 0) ss).get? j
        = some s := h
    have h2 : (sylLayoutV a lp2 mw (cy + (s0.height).getD 0) ss).get? (j + 1)
        = some s' := h'
    exact sylLayoutV_adj a lp2 mw _ ss j s s' h1 h2

theorem charLayoutV_mem (a resx : Int) (lp : PosR) (mw : ℚ) :
    ∀ (cy : ℚ) (cs : List CharE) (c : CharE),
    c ∈ charLayoutV a resx lp mw cy cs →
    c.middle = c.top.map (fun t => t + (c.height).getD 0 / 2)
    ∧ c.bottom = c.top.map (fun t => t + (c.height).getD 0)
    ∧ c.y = c.middle
  | cy, [], c, hc => absurd hc (by simp [charLayoutV])
  | cy, c0 :: cs, c, hc => by
    rw [charLayoutV_cons] at hc
    rcases List.mem_cons.mp hc with rfl | hc
    · exact ⟨rfl, rfl, rfl⟩
    · exact charLayoutV_mem a resx lp mw _ cs c hc

theorem charLayoutH_mem (a : Int) (sp : ℚ) (lp : PosR) :
    ∀ (cx : ℚ) (cs : List CharE) (c : CharE),
    c ∈ charLayoutH a sp lp cx cs →
    c.top = some lp.top ∧ c.middle = some lp.middle
    ∧ c.bottom = some lp.bottom ∧ c.y = some lp.y
  | cx, [], c, hc => absurd hc (by simp [charLayoutH])
  | cx, c0 :: cs, c, hc => by
    rw [charLayoutH_cons] at hc
    rcases List.mem_cons.mp hc with rfl | hc
    · exact ⟨rfl, rfl, rfl, rfl⟩
    · exact charLayoutH_mem a sp lp _ cs c hc

theorem wordLayoutH_mem (a : Int) (sw sp : ℚ) (lp : PosR) :
    ∀ (cx : ℚ) (ws : List WordE) (w : WordE),
    w ∈ wordLayoutH a sw sp lp cx ws →
    w.top = some lp.top ∧ w.middle = some lp.middle
    ∧ w.bottom = some lp.bottom ∧ w.y = some lp.y
  | cx, [], w, hw => absurd hw (by simp [wordLayoutH])
  | cx, w0 :: ws, w, hw => by
    rw [wordLayoutH_cons] at hw
    rcases List.mem_cons.mp hw with rfl | hw
    · exact ⟨rfl, rfl, rfl, rfl⟩
    · exact wordLayoutH_mem a sw sp lp _ ws w hw

theorem sylLayoutH_mem (a : Int) (sw sp : ℚ) (lp : PosR) :
    ∀ (cx : ℚ) (ss : List SylE) (s : SylE),
    s ∈ sylLayoutH a sw sp lp cx ss →
    s.top = some lp.top ∧ s.middle = some lp.middle
    ∧ s.bottom = some lp.bottom ∧ s.y = some lp.y
  | cx, [], s, hs => absurd hs (by simp [sylLayoutH])
  | cx, s0 :: ss, s, hs => by
    rw [sylLayoutH_cons] at hs
    rcases List.mem_cons.mp hs with rfl | hs
    · exact ⟨rfl, rfl, rfl, rfl⟩
    · exact sylLayoutH_mem a sw sp lp _ ss s hs

theorem charPass_unfold (a resx resy : Int) (sp : ℚ) (lp2 : PosR)
    (chars0 : List CharE) :
    charPass a resx resy sp lp2 chars0
      = if chars0 = [] then chars0
        else if a > 6 ∨ a < 4 then charLayoutH a sp lp2 lp2.left chars0
        else
          charLayoutV a resx lp2 (maxW (fun c => c.width) chars0)
            ((resy : ℚ) / 2 - sumH (fun c => c.height) chars0 / 2) chars0 := rfl

theorem charPass_h (a resx resy : Int) (sp : ℚ) (lp2 : PosR)
    (chars0 : List CharE) (h : a > 6 ∨ a < 4) :
    charPass a resx resy sp lp2 chars0
      = charLayoutH a sp lp2 lp2.left chars0 := by
  rw [charPass_unfold]
  by_cases h0 : chars0 = []
  · rw [if_pos h0, h0]
    rfl
  · rw [if_neg h0, if_pos h]

theorem charPass_v (a resx resy : Int) (sp : ℚ) (lp2 : PosR)
    (chars0 : List CharE) (h : ¬(a > 6 ∨ a < 4)) :
    charPass a resx resy sp lp2 chars0
      = charLayoutV a resx lp2 (maxW (fun c => c.width) chars0)
          ((resy : ℚ) / 2 - sumH (fun c => c.height) chars0 / 2) chars0 := by
  rw [charPass_unfold]
  by_cases h0 : chars0 = []
  · rw [if_pos h0, h0]
    rfl
  · rw [if_neg h0, if_neg h]

theorem wordPass_unfold (a resx resy : Int) (sw sp : ℚ) (lp : PosR)
    (words0 : List WordE) :
    wordPass a resx resy sw sp lp words0
      = if words0 = [] then words0
        else if a > 6 ∨ a < 4 then wordLayoutH a sw sp lp lp.left words0
        else
          wordLayoutV a resx lp (maxW (fun w => w.width) words0)
            ((resy : ℚ) / 2 - sumH (fun w => w.height) words0 / 2) words0 := rfl

theorem wordPass_h (a resx resy : Int) (sw sp : ℚ) (lp : PosR)
    (words0 : List WordE) (h : a > 6 ∨ a < 4) :
    wordPass a resx resy sw sp lp words0
      = wordLayoutH a sw sp lp lp.left words0 := by
  rw [wordPass_unfold]
  by_cases h0 : words0 = []
  · rw [if_pos h0, h0]
    rfl
  · rw [if_neg h0, if_pos h]

theorem wordPass_v (a resx resy : Int) (sw sp : ℚ) (lp : PosR)
    (words0 : List WordE) (h : ¬(a > 6 ∨ a < 4)) :
    wordPass a resx resy sw sp lp words0
      = wordLayoutV a resx lp (maxW (fun w => w.width) words0)
          ((resy : ℚ) / 2 - sumH (fun w => w.height) words0 / 2) words0 := by
  rw [wordPass_unfold]
  by_cases h0 : words0 = []
  · rw [if_pos h0, h0]
    rfl
  · rw [if_neg h0, if_neg h]

theorem sylPass_unfold (vk : Bool) (a resy : Int) (sw sp : ℚ) (lp : PosR)
    (lw lh : ℚ) (syls0 : List SylE) :
    sylPass vk a resy sw sp lp lw lh syls0
      = if syls0 = [] then (lw, lh, lp, syls0)
        else if a > 6 ∨ a < 4 ∨ vk = false then
          (lw, lh, lp, sylLayoutH a sw sp lp lp.left syls0)
        else
          (maxW (fun s => s.width) syls0, sumH (fun s => s.height) syls0,
           sylKanjiLine a resy lp (maxW (fun s => s.width) syls0)
             (sumH (fun s => s.height) syls0),
           sylLayoutV a
             (sylKanjiLine a resy lp (maxW (fun s => s.width) syls0)
               (sumH (fun s => s.height) syls0))
             (maxW (fun s => s.width) syls0)
             ((resy : ℚ) / 2 - sumH (fun s => s.height) syls0 / 2) syls0) := rfl

theorem sylPass_nil (vk : Bool) (a resy : Int) (sw sp : ℚ) (lp : PosR)
    (lw lh : ℚ) :
    sylPass vk a resy sw sp lp lw lh [] = (lw, lh, lp, []) := by
  rw [sylPass_unfold]
  rw [if_pos rfl]

theorem sylPass_keep (vk : Bool) (a resy : Int) (sw sp : ℚ) (lp : PosR)
    (lw lh : ℚ) (syls0 : List SylE) (h : a > 6 ∨ a < 4 ∨ vk = false) :
    sylPass vk a resy sw sp lp lw lh syls0
      = (lw, lh, lp, sylLayoutH a sw sp lp lp.left syls0) := by
  rw [sylPass_unfold]
  by_cases h0 : syls0 = []
  · rw [if_pos h0, h0]
    rfl
  · rw [if_neg h0, if_pos h]

theorem sylPass_stack (vk : Bool) (a resy : Int) (sw sp : ℚ) (lp : PosR)
    (lw lh : ℚ) (syls0 : List SylE) (h0 : syls0 ≠ [])
    (h : ¬(a > 6 ∨ a < 4 ∨ vk = false)) :
    sylPass vk a resy sw sp lp lw lh syls0
      = (maxW (fun s => s.width) syls0, sumH (fun s => s.height) syls0,
         sylKanjiLine a resy lp (maxW (fun s => s.width) syls0)
           (sumH (fun s => s.height) syls0),
         sylLayoutV a
           (sylKanjiLine a resy lp (maxW (fun s => s.width) syls0)
             (sumH (fun s => s.height) syls0))
           (maxW (fun s => s.width) syls0)
           ((resy : ℚ) / 2 - sumH (fun s => s.height) syls0 / 2) syls0) := by
  rw [sylPass_unfold]
  rw [if_neg h0, if_neg h]

theorem sylKanjiLine_vert (a resy : Int) (lp : PosR) (mw sh : ℚ) :
    (sylKanjiLine a resy lp mw sh).top = (resy : ℚ) / 2 - sh / 2
    ∧ (sylKanjiLine a resy lp mw sh).middle = (resy : ℚ) / 2
    ∧ (sylKanjiLine a resy lp mw sh).bottom = (resy : ℚ) / 2 - sh / 2 + sh := by
  unfold sylKanjiLine
  split_ifs <;> exact ⟨rfl, rfl, rfl⟩

/-- The line's own position block from its measured extents, as fed to the
layout passes of the extended computation. -/
def lineLP (f : FontM) (resx resy : Int) (st : StyleR) (ln : PLineIn) : PosR :=
  mkLinePos resx resy st ln.margin_l ln.margin_r ln.margin_v
    (f.extents (stripTags ln.raw_text)).1 (f.extents (stripTags ln.raw_text)).2

/-- The positioned word list of the extended computation. -/
def lineWords1 (f : FontM) (resx resy : Int) (st : StyleR) (ln : PLineIn) :
    List WordE :=
  wordPass st.alignment resx resy (f.extents [' ']).1 st.spacing
    (lineLP f resx resy st ln)
    (buildWords f ln.start_time ln.end_time (ln.end_time - ln.start_time)
      (stripTags ln.raw_text))

/-- The syllable pass of the extended computation: the (possibly
overwritten) line width, height, position, and the positioned syllables. -/
def lineKanji (f : FontM) (vk : Bool) (resx resy : Int) (st : StyleR)
    (ln : PLineIn) : ℚ × ℚ × PosR × List SylE :=
  sylPass vk st.alignment resy (f.extents [' ']).1 st.spacing
    (lineLP f resx resy st ln)
    (f.extents (stripTags ln.raw_text)).1
    (f.extents (stripTags ln.raw_text)).2
    (buildSyls f (buildChunks ln.raw_text))

/-- The character list of the extended computation before the character
position pass: from the syllables when present, else from the words. -/
def lineChars0 (f : FontM) (vk : Bool) (resx resy : Int) (st : StyleR)
    (ln : PLineIn) : List CharE :=
  if (lineKanji f vk resx resy st ln).2.2.2 ≠ [] then
    buildCharsS f 0 (lineKanji f vk resx resy st ln).2.2.2
  else buildCharsW f 0 (lineWords1 f resx resy st ln)

theorem processLinePos_words_eq (f : FontM) (vk : Bool) (resx resy : Int)
    (st : StyleR) (ln : PLineIn) :
    (processLinePos f vk resx resy st ln).words
      = lineWords1 f resx resy st ln := rfl

theorem processLinePos_syls_eq (f : FontM) (vk : Bool) (resx resy : Int)
    (st : StyleR) (ln : PLineIn) :
    (processLinePos f vk resx resy st ln).syls
      = (lineKanji f vk resx resy st ln).2.2.2 := rfl

theorem processLinePos_chars_eq (f : FontM) (vk : Bool) (resx resy : Int)
    (st : StyleR) (ln : PLineIn) :
    (processLinePos f vk resx resy st ln).chars
      = charPass st.alignment resx resy st.spacing
          (lineKanji f vk resx resy st ln).2.2.1
          (lineChars0 f vk resx resy st ln) := rfl

theorem processLinePos_top_eq (f : FontM) (vk : Bool) (resx resy : Int)
    (st : StyleR) (ln : PLineIn) :
    (processLinePos f vk resx resy st ln).top
      = some (lineKanji f vk resx resy st ln).2.2.1.top := rfl

theorem processLinePos_middle_eq (f : FontM) (vk : Bool) (resx resy : Int)
    (st : StyleR) (ln : PLineIn) :
    (processLinePos f vk resx resy st ln).middle
      = some (lineKanji f vk resx resy st ln).2.2.1.middle := rfl

theorem processLinePos_bottom_eq (f : FontM) (vk : Bool) (resx resy : Int)
    (st : StyleR) (ln : PLineIn) :
    (processLinePos f vk resx resy st ln).bottom
      = some (lineKanji f vk resx resy st ln).2.2.1.bottom := rfl

theorem processLinePos_y_eq (f : FontM) (vk : Bool) (resx resy : Int)
    (st : StyleR) (ln : PLineIn) :
    (processLinePos f vk resx resy st ln).y
      = some (lineKanji f vk resx resy st ln).2.2.1.y := rfl

theorem processLinePos_width_eq (f : FontM) (vk : Bool) (resx resy : Int)
    (st : StyleR) (ln : PLineIn) :
    (processLinePos f vk resx resy st ln).width
      = some (lineKanji f vk resx resy st ln).1 := rfl

theorem processLinePos_height_eq (f : FontM) (vk : Bool) (resx resy : Int)
    (st : StyleR) (ln : PLineIn) :
    (processLinePos f vk resx resy st ln).height
      = some (lineKanji f vk resx resy st ln).2.1 := rfl

theorem lineKanji_unfold (f : FontM) (vk : Bool) (resx resy : Int)
    (st : StyleR) (ln : PLineIn) :
    lineKanji f vk resx resy st ln
      = sylPass vk st.alignment resy (f.extents [' ']).1 st.spacing
          (lineLP f resx resy st ln)
          (f.extents (stripTags ln.raw_text)).1
          (f.extents (stripTags ln.raw_text)).2
          (buildSyls f (buildChunks ln.raw_text)) := rfl

theorem lineWords1_unfold (f : FontM) (resx resy : Int) (st : StyleR)
    (ln : PLineIn) :
    lineWords1 f resx resy st ln
      = wordPass st.alignment resx resy (f.extents [' ']).1 st.spacing
          (lineLP f resx resy st ln)
          (buildWords f ln.start_time ln.end_time
            (ln.end_time - ln.start_time) (stripTags ln.raw_text)) := rfl

theorem processLine_eq_pos (f : FontM) (vk : Bool) (resx resy : Int)
    (st : StyleR) (ln : PLineIn) (hres : resx > 0 ∧ resy > 0) :
    processLine f vk resx resy st ln = processLinePos f vk resx resy st ln := by
  simp only [processLine]
  rw [if_pos hres]

/-- C6: the claim that characters always take the line's vertical
coordinates fails for the middle-row alignments.  Corrected: with positive
play resolution, a Char's top/middle/bottom/y equal the line's exactly
when the alignment is outside 4–6; for alignment 4, 5 or 6 the characters
are restacked into their own vertical column regardless of the
vertical-kanji flag — the column starts at the vertically centered height
for the summed character heights, each later character's top is the
previous character's bottom, and each character's middle, bottom and y
are derived from its own top and height. -/
theorem C6_char_vertical (f : FontM) (vk : Bool) (resx resy : Int)
    (st : StyleR) (ln : PLineIn) (hres : resx > 0 ∧ resy > 0) :
    ((st.alignment > 6 ∨ st.alignment < 4) →
      ∀ c ∈ (processLine f vk resx resy st ln).chars,
        c.top = (processLine f vk resx resy st ln).top
        ∧ c.middle = (processLine f vk resx resy st ln).middle
        ∧ c.bottom = (processLine f vk resx resy st ln).bottom
        ∧ c.y = (processLine f vk resx resy st ln).y)
    ∧ (¬(st.alignment > 6 ∨ st.alignment < 4) →
      (∀ c, (processLine f vk resx resy st ln).chars.get? 0 = some c →
        c.top = some ((resy : ℚ) / 2
          - sumH (fun x => x.height) (processLine f vk resx resy st ln).chars / 2))
      ∧ (∀ (j : Nat) (c c' : CharE),
        (processLine f vk resx resy st ln).chars.get? j = some c →
        (processLine f vk resx resy st ln).chars.get? (j + 1) = some c' →
        c'.top = c.bottom)
      ∧ (∀ c ∈ (processLine f vk resx resy st ln).chars,
        c.middle = c.top.map (fun t => t + (c.height).getD 0 / 2)
        ∧ c.bottom = c.top.map (fun t => t + (c.height).getD 0)
        ∧ c.y = c.middle)) := by
  rw [processLine_eq_pos f vk resx resy st ln hres]
  rw [processLinePos_chars_eq, processLinePos_top_eq, processLinePos_middle_eq,
    processLinePos_bottom_eq, processLinePos_y_eq]
  constructor
  · intro h c hc
    rw [charPass_h st.alignment resx resy st.spacing _ _ h] at hc
    exact charLayoutH_mem st.alignment st.spacing _ _ _ c hc
  · intro h
    rw [charPass_v st.alignment resx resy st.spacing _ _ h]
    have hs := sumH_congr2 (fun x : CharE => x.height) (fun x : CharE => x.height)
      _ _ (charLayoutV_map_height st.alignment resx
        (lineKanji f vk resx resy st ln).2.2.1
        (maxW (fun c => c.width) (lineChars0 f vk resx resy st ln))
        ((resy : ℚ) / 2
          - sumH (fun c => c.height) (lineChars0 f vk resx resy st ln) / 2)
        (lineChars0 f vk resx resy st ln))
    refine ⟨?_, ?_, ?_⟩
    · intro c hc
      rw [charLayoutV_get0 _ _ _ _ _ _ c hc, hs]
    · intro j c c' hc hc'
      exact charLayoutV_adj _ _ _ _ _ _ j c c' hc hc'
    · intro c hc
      exact charLayoutV_mem _ _ _ _ _ _ c hc

/-- Counterexample to C6 as stated: at play resolution 200×100, style
alignment 5 and raw text `ab`, the first character's top is 40 while the
line's top is 45 — the characters were restacked into their own column,
not given the line's vertical coordinates. -/
theorem C6_cex :
    ((processLine testFont true 200 100 (testStyle 5)
        ⟨0, 1000, 0, 0, 0, "ab".toList⟩).chars.get? 0).map (fun c => c.top)
      = some (some 40)
    ∧ (processLine testFont true 200 100 (testStyle 5)
        ⟨0, 1000, 0, 0, 0, "ab".toList⟩).top = some 45 := by
  have hpos := processLine_eq_pos testFont true 200 100 (testStyle 5)
    ⟨0, 1000, 0, 0, 0, "ab".toList⟩ (by decide)
  have hmap : (lineChars0 testFont true 200 100 (testStyle 5)
      ⟨0, 1000, 0, 0, 0, "ab".toList⟩).map (fun c => c.height)
      = [some 10, some 10] := by decide
  have hsum : sumH (fun c => c.height)
      (lineChars0 testFont true 200 100 (testStyle 5)
        ⟨0, 1000, 0, 0, 0, "ab".toList⟩) = 20 := by
    rw [sumH_eq_map, hmap]
    norm_num [List.foldl_cons, List.foldl_nil, Option.getD_some]
  constructor
  · rw [hpos, processLinePos_chars_eq]
    rw [charPass_v _ _ _ _ _ _ (by decide)]
    obtain ⟨c0, cs, hcs⟩ := List.exists_cons_of_ne_nil
      (show lineChars0 testFont true 200 100 (testStyle 5)
          ⟨0, 1000, 0, 0, 0, "ab".toList⟩ ≠ [] from by decide)
    rw [hcs, charLayoutV_cons]
    simp only [List.get?_cons_zero, Option.map_some']
    rw [charV1_top, ← hcs, hsum]
    norm_num
  · rw [hpos, processLinePos_top_eq, lineKanji_unfold]
    rw [show buildSyls testFont (buildChunks ("ab".toList)) = [] from by decide]
    rw [sylPass_nil]
    show some ((lineLP testFont 200 100 (testStyle 5)
      ⟨0, 1000, 0, 0, 0, "ab".toList⟩).top) = some 45
    rw [show lineLP testFont 200 100 (testStyle 5)
        ⟨0, 1000, 0, 0, 0, "ab".toList⟩
        = mkLinePos 200 100 (testStyle 5) 0 0 0
            (testFont.extents (stripTags ("ab".toList))).1
            (testFont.extents (stripTags ("ab".toList))).2 from rfl]
    rw [show stripTags ("ab".toList) = "ab".toList from by decide]
    rw [show (testFont.extents ("ab".toList)).2 = (10 : ℚ) from rfl]
    norm_num [mkLinePos, testStyle]

/-- Witness for C6 at a concrete bottom-row line: alignment 2 is outside
the middle row, so every character of `Hi there` takes the line's
vertical coordinates. -/
theorem C6_char_vertical_witness :
    ((1280 : Int) > 0 ∧ (720 : Int) > 0)
    ∧ (((testStyle 2).alignment > 6 ∨ (testStyle 2).alignment < 4) →
      ∀ c ∈ (processLine testFont true 1280 720 (testStyle 2)
          ⟨0, 1000, 0, 0, 0, "Hi there".toList⟩).chars,
        c.top = (processLine testFont true 1280 720 (testStyle 2)
          ⟨0, 1000, 0, 0, 0, "Hi there".toList⟩).top
        ∧ c.middle = (processLine testFont true 1280 720 (testStyle 2)
          ⟨0, 1000, 0, 0, 0, "Hi there".toList⟩).middle
        ∧ c.bottom = (processLine testFont true 1280 720 (testStyle 2)
          ⟨0, 1000, 0, 0, 0, "Hi there".toList⟩).bottom
        ∧ c.y = (processLine testFont true 1280 720 (testStyle 2)
          ⟨0, 1000, 0, 0, 0, "Hi there".toList⟩).y) :=
  ⟨by decide,
   (C6_char_vertical testFont true 1280 720 (testStyle 2)
     ⟨0, 1000, 0, 0, 0, "Hi there".toList⟩ (by decide)).1⟩

/-- C7: the claim that vertical stacking requires the vertical-kanji flag
fails for the word pass, which stacks for alignments 4–6 regardless of the
flag.  Corrected: with positive play resolution, words are stacked
top-to-bottom exactly when the alignment is 4, 5 or 6 (the flag is not
consulted), taking the line's vertical coordinates otherwise; syllables
cursor-walk with the line's vertical coordinates, and the line keeps its
own measured width, height and position, whenever the alignment is outside
4–6 or the flag is off; only when the alignment is 4–6, the flag is on
and syllables are present are the syllables stacked with the line's
width, height, top, middle and bottom overwritten to the stacked column's
bounds. -/
theorem C7_vertical_stack (f : FontM) (vk : Bool) (resx resy : Int)
    (st : StyleR) (ln : PLineIn) (hres : resx > 0 ∧ resy > 0) :
    ((st.alignment > 6 ∨ st.alignment < 4) →
      ∀ w ∈ (processLine f vk resx resy st ln).words,
        w.top = (processLine f vk resx resy st ln).top
        ∧ w.middle = (processLine f vk resx resy st ln).middle
        ∧ w.bottom = (processLine f vk resx resy st ln).bottom
        ∧ w.y = (processLine f vk resx resy st ln).y)
    ∧ (¬(st.alignment > 6 ∨ st.alignment < 4) →
      (∀ w, (processLine f vk resx resy st ln).words.get? 0 = some w →
        w.top = some ((resy : ℚ) / 2
          - sumH (fun x => x.height) (processLine f vk resx resy st ln).words / 2))
      ∧ (∀ (j : Nat) (w w' : WordE),
        (processLine f vk resx resy st ln).words.get? j = some w →
        (processLine f vk resx resy st ln).words.get? (j + 1) = some w' →
        w'.top = w.bottom))
    ∧ ((st.alignment > 6 ∨ st.alignment < 4 ∨ vk = false) →
      (∀ s ∈ (processLine f vk resx resy st ln).syls,
        s.top = (processLine f vk resx resy st ln).top
        ∧ s.middle = (processLine f vk resx resy st ln).middle
        ∧ s.bottom = (processLine f vk resx resy st ln).bottom
        ∧ s.y = (processLine f vk resx resy st ln).y)
      ∧ (processLine f vk resx resy st ln).width
          = some (f.extents (stripTags ln.raw_text)).1
      ∧ (processLine f vk resx resy st ln).height
          = some (f.extents (stripTags ln.raw_text)).2
      ∧ (processLine f vk resx resy st ln).top
          = some (lineLP f resx resy st ln).top)
    ∧ (¬(st.alignment > 6 ∨ st.alignment < 4) → vk = true →
        buildSyls f (buildChunks ln.raw_text) ≠ [] →
      (∀ s, (processLine f vk resx resy st ln).syls.get? 0 = some s →
        s.top = some ((resy : ℚ) / 2
          - sumH (fun x => x.height) (processLine f vk resx resy st ln).syls / 2))
      ∧ (∀ (j : Nat) (s s' : SylE),
        (processLine f vk resx resy st ln).syls.get? j = some s →
        (processLine f vk resx resy st ln).syls.get? (j + 1) = some s' →
        s'.top = s.bottom)
      ∧ (processLine f vk resx resy st ln).width
          = some (maxW (fun x => x.width) (processLine f vk resx resy st ln).syls)
      ∧ (processLine f vk resx resy st ln).height
          = some (sumH (fun x => x.height) (processLine f vk resx resy st ln).syls)
      ∧ (processLine f vk resx resy st ln).top
          = some ((resy : ℚ) / 2
            - sumH (fun x => x.height) (processLine f vk resx resy st ln).syls / 2)
      ∧ (processLine f vk resx resy st ln).middle = some ((resy : ℚ) / 2)
      ∧ (processLine f vk resx resy st ln).bottom
          = some ((resy : ℚ) / 2
            - sumH (fun x => x.height) (processLine f vk resx resy st ln).syls / 2
            + sumH (fun x => x.height) (processLine f vk resx resy st ln).syls)) := by
  rw [processLine_eq_pos f vk resx resy st ln hres]
  rw [processLinePos_words_eq, processLinePos_syls_eq, processLinePos_top_eq,
    processLinePos_middle_eq, processLinePos_bottom_eq, processLinePos_y_eq,
    processLinePos_width_eq, processLinePos_height_eq]
  refine ⟨?_, ?_, ?_, ?_⟩
  · intro h w hw
    have hcond : st.alignment > 6 ∨ st.alignment < 4 ∨ vk = false := by
      rcases h with h | h
      · exact Or.inl h
      · exact Or.inr (Or.inl h)
    have hlp : (lineKanji f vk resx resy st ln).2.2.1
        = lineLP f resx resy st ln := by
      rw [lineKanji_unfold, sylPass_keep _ _ _ _ _ _ _ _ _ hcond]
    rw [hlp]
    rw [lineWords1_unfold, wordPass_h _ _ _ _ _ _ _ h] at hw
    exact wordLayoutH_mem _ _ _ _ _ _ w hw
  · intro h
    rw [lineWords1_unfold, wordPass_v st.alignment resx resy (f.extents [' ']).1
      st.spacing (lineLP f resx resy st ln)
      (buildWords f ln.start_time ln.end_time (ln.end_time - ln.start_time)
        (stripTags ln.raw_text)) h]
    have hs := sumH_congr2 (fun x : WordE => x.height) (fun x : WordE => x.height)
      _ _ (wordLayoutV_map_height st.alignment resx (lineLP f resx resy st ln)
        (maxW (fun w => w.width)
          (buildWords f ln.start_time ln.end_time (ln.end_time - ln.start_time)
            (stripTags ln.raw_text)))
        ((resy : ℚ) / 2 - sumH (fun w => w.height)
          (buildWords f ln.start_time ln.end_time (ln.end_time - ln.start_time)
            (stripTags ln.raw_text)) / 2)
        (buildWords f ln.start_time ln.end_time (ln.end_time - ln.start_time)
          (stripTags ln.raw_text)))
    refine ⟨?_, ?_⟩
    · intro w hw
      rw [wordLayoutV_get0 _ _ _ _ _ _ w hw, hs]
    · intro j w w' hw hw'
      exact wordLayoutV_adj _ _ _ _ _ _ j w w' hw hw'
  · intro h
    have hsyl : (lineKanji f vk resx resy st ln).2.2.2
        = sylLayoutH st.alignment (f.extents [' ']).1 st.spacing
            (lineLP f resx resy st ln) (lineLP f resx resy st ln).left
            (buildSyls f (buildChunks ln.raw_text)) := by
      rw [lineKanji_unfold, sylPass_keep _ _ _ _ _ _ _ _ _ h]
    have hlp : (lineKanji f vk resx resy st ln).2.2.1
        = lineLP f resx resy st ln := by
      rw [lineKanji_unfold, sylPass_keep _ _ _ _ _ _ _ _ _ h]
    have hw1 : (lineKanji f vk resx resy st ln).1
        = (f.extents (stripTags ln.raw_text)).1 := by
      rw [lineKanji_unfold, sylPass_keep _ _ _ _ _ _ _ _ _ h]
    have hh1 : (lineKanji f vk resx resy st ln).2.1
        = (f.extents (stripTags ln.raw_text)).2 := by
      rw [lineKanji_unfold, sylPass_keep _ _ _ _ _ _ _ _ _ h]
    rw [hsyl, hlp, hw1, hh1]
    refine ⟨?_, rfl, rfl, rfl⟩
    intro s hs2
    exact sylLayoutH_mem _ _ _ _ _ _ s hs2
  · intro h hvk hne
    have hcond : ¬(st.alignment > 6 ∨ st.alignment < 4 ∨ vk = false) := by
      intro hc
      rcases hc with hc | hc | hc
      · exact h (Or.inl hc)
      · exact h (Or.inr hc)
      · rw [hvk] at hc
        exact absurd hc (by decide)
    obtain ⟨S0, hS0⟩ : ∃ S0, S0 = buildSyls f (buildChunks ln.raw_text) := ⟨_, rfl⟩
    obtain ⟨lp0, hlp0⟩ : ∃ lp0, lp0 = lineLP f resx resy st ln := ⟨_, rfl⟩
    have hne0 : S0 ≠ [] := by
      rw [hS0]
      exact hne
    have hsyl : (lineKanji f vk resx resy st ln).2.2.2
        = sylLayoutV st.alignment
            (sylKanjiLine st.alignment resy lp0 (maxW (fun s => s.width) S0)
              (sumH (fun s => s.height) S0))
            (maxW (fun s => s.width) S0)
            ((resy : ℚ) / 2 - sumH (fun s => s.height) S0 / 2) S0 := by
      rw [lineKanji_unfold, ← hS0, ← hlp0,
        sylPass_stack _ _ _ _ _ _ _ _ _ hne0 hcond]
    have hlpk : (lineKanji f vk resx resy st ln).2.2.1
        = sylKanjiLine st.alignment resy lp0 (maxW (fun s => s.width) S0)
            (sumH (fun s => s.height) S0) := by
      rw [lineKanji_unfold, ← hS0, ← hlp0,
        sylPass_stack _ _ _ _ _ _ _ _ _ hne0 hcond]
    have hw1 : (lineKanji f vk resx resy st ln).1
        = maxW (fun s => s.width) S0 := by
      rw [lineKanji_unfold, ← hS0, ← hlp0,
        sylPass_stack _ _ _ _ _ _ _ _ _ hne0 hcond]
    have hh1 : (lineKanji f vk resx resy st ln).2.1
        = sumH (fun s => s.height) S0 := by
      rw [lineKanji_unfold, ← hS0, ← hlp0,
        sylPass_stack _ _ _ _ _ _ _ _ _ hne0 hcond]
    have hsH := sumH_congr2 (fun x : SylE => x.height) (fun x : SylE => x.height)
      _ _ (sylLayoutV_map_height st.alignment
        (sylKanjiLine st.alignment resy lp0 (maxW (fun s => s.width) S0)
          (sumH (fun s => s.height) S0))
        (maxW (fun s => s.width) S0)
        ((resy : ℚ) / 2 - sumH (fun s => s.height) S0 / 2) S0)
    have hsW := maxW_congr2 (fun x : SylE => x.width) (fun x : SylE => x.width)
      _ _ (sylLayoutV_map_width st.alignment
        (sylKanjiLine st.alignment resy lp0 (maxW (fun s => s.width) S0)
          (sumH (fun s => s.height) S0))
        (maxW (fun s => s.width) S0)
        ((resy : ℚ) / 2 - sumH (fun s => s.height) S0 / 2) S0)
    rw [hsyl, hlpk, hw1, hh1]
    refine ⟨?_, ?_, ?_, ?_, ?_, ?_, ?_⟩
    · intro s hs2
      rw [sylLayoutV_get0 _ _ _ _ _ s hs2, hsH]
    · intro j s s' hs2 hs2'
      exact sylLayoutV_adj _ _ _ _ _ j s s' hs2 hs2'
    · rw [hsW]
    · rw [hsH]
    · rw [(sylKanjiLine_vert st.alignment resy lp0 (maxW (fun s => s.width) S0)
        (sumH (fun s => s.height) S0)).1, hsH]
    · rw [(sylKanjiLine_vert st.alignment resy lp0 (maxW (fun s => s.width) S0)
        (sumH (fun s => s.height) S0)).2.1]
    · rw [(sylKanjiLine_vert st.alignment resy lp0 (maxW (fun s => s.width) S0)
        (sumH (fun s => s.height) S0)).2.2, hsH]

/-- Counterexample to C7 as stated: at play resolution 200×100, style
alignment 5, raw text `ab c` and the vertical-kanji flag OFF, the first
word's top is 40 while the line's top is 45 — the words were stacked into
a vertical column although the claim requires a horizontal cursor walk
(which would give every word the line's top) whenever the flag is
disabled. -/
theorem C7_cex :
    ((processLine testFont false 200 100 (testStyle 5)
        ⟨0, 1000, 0, 0, 0, "ab c".toList⟩).words.get? 0).map (fun w => w.top)
      = some (some 40)
    ∧ (processLine testFont false 200 100 (testStyle 5)
        ⟨0, 1000, 0, 0, 0, "ab c".toList⟩).top = some 45 := by
  have hpos := processLine_eq_pos testFont false 200 100 (testStyle 5)
    ⟨0, 1000, 0, 0, 0, "ab c".toList⟩ (by decide)
  have hmapw : (buildWords testFont 0 1000 (1000 - 0)
      (stripTags ("ab c".toList))).map (fun w => w.height)
      = [some 10, some 10] := by decide
  have hsumw : sumH (fun w => w.height)
      (buildWords testFont 0 1000 (1000 - 0) (stripTags ("ab c".toList)))
      = 20 := by
    rw [sumH_eq_map, hmapw]
    norm_num [List.foldl_cons, List.foldl_nil, Option.getD_some]
  constructor
  · rw [hpos, processLinePos_words_eq, lineWords1_unfold]
    rw [wordPass_v _ _ _ _ _ _ _ (by decide)]
    obtain ⟨w0, ws, hws⟩ := List.exists_cons_of_ne_nil
      (show buildWords testFont 0 1000 (1000 - 0)
          (stripTags ("ab c".toList)) ≠ [] from by decide)
    rw [hws, wordLayoutV_cons]
    simp only [List.get?_cons_zero, Option.map_some']
    rw [wordV1_top, ← hws, hsumw]
    norm_num
  · rw [hpos, processLinePos_top_eq, lineKanji_unfold]
    rw [show buildSyls testFont (buildChunks ("ab c".toList)) = [] from by decide]
    rw [sylPass_nil]
    show some ((lineLP testFont 200 100 (testStyle 5)
      ⟨0, 1000, 0, 0, 0, "ab c".toList⟩).top) = some 45
    rw [show lineLP testFont 200 100 (testStyle 5)
        ⟨0, 1000, 0, 0, 0, "ab c".toList⟩
        = mkLinePos 200 100 (testStyle 5) 0 0 0
            (testFont.extents (stripTags ("ab c".toList))).1
            (testFont.extents (stripTags ("ab c".toList))).2 from rfl]
    rw [show stripTags ("ab c".toList) = "ab c".toList from by decide]
    rw [show (testFont.extents ("ab c".toList)).2 = (10 : ℚ) from rfl]
    norm_num [mkLinePos, testStyle]

/-- Witness for C7 at a concrete bottom-row line: alignment 1 is outside
the middle row, so every word of `Hi there` takes the line's vertical
coordinates (a cursor walk, no stacking). -/
theorem C7_vertical_stack_witness :
    ((1280 : Int) > 0 ∧ (720 : Int) > 0)
    ∧ (((testStyle 1).alignment > 6 ∨ (testStyle 1).alignment < 4) →
      ∀ w ∈ (processLine testFont true 1280 720 (testStyle 1)
          ⟨0, 1000, 0, 0, 0, "Hi there".toList⟩).words,
        w.top = (processLine testFont true 1280 720 (testStyle 1)
          ⟨0, 1000, 0, 0, 0, "Hi there".toList⟩).top
        ∧ w.middle = (processLine testFont true 1280 720 (testStyle 1)
          ⟨0, 1000, 0, 0, 0, "Hi there".toList⟩).middle
        ∧ w.bottom = (processLine testFont true 1280 720 (testStyle 1)
          ⟨0, 1000, 0, 0, 0, "Hi there".toList⟩).bottom
        ∧ w.y = (processLine testFont true 1280 720 (testStyle 1)
          ⟨0, 1000, 0, 0, 0, "Hi there".toList⟩).y) :=
  ⟨by decide,
   (C7_vertical_stack testFont true 1280 720 (testStyle 1)
     ⟨0, 1000, 0, 0, 0, "Hi there".toList⟩ (by decide)).1⟩
